import Mathlib

/-!
Verification of the note-rag retrieval core against its specification.

The development shallowly embeds the Python sources of the repository:

* `services/api/fusion.py` — the pure fusion kernel (`reciprocal_rank_fusion`,
  `position_aware_blend`, `normalize_scores`);
* `services/api/searcher.py` — `Searcher.get_embedding`, `vector_search`,
  `hybrid_search`, `query_search`;
* `services/api/reranker.py` — `Reranker._generate`, `score_document`, `rerank`;
* `services/api/indexer.py` — `Indexer.get_embedding`, `_chunk_document_sync`,
  `index_file`.

Conventions of the embedding:

* Python dicts holding search results become the `RDoc` structure; an absent
  key is modelled as `none` (optional numeric fields) or `""` (string fields).
* Scores are exact rationals `ℚ` standing for the float arithmetic of the
  source; the algorithms are rank arithmetic on small sums of unit fractions.
* Python's `sorted(..., reverse=True)` is a stable descending sort, embedded
  as stable insertion sort `sortDesc` (any stable sort has the same output).
* Effectful calls (embedding backend, LLM backend, vector tables) are
  parameters of the embedded functions: an `Except String` value models a call
  that either returned or raised, and a function argument models the backend's
  response behaviour.  Fallible Python code becomes `Except`-valued.
-/

namespace NoteRag

/-- A search-result record — a Python dict in the source.  `file_path` is the
document identity key (the default `id_key`); a doc whose `file_path` is `""`
models a dict with a missing or falsy id.  `payload` stands for the remaining
metadata fields (title, vault, date, …), which the fusion kernel only copies
around. -/
structure RDoc where
  file_path : String
  content : String := ""
  snippet : String := ""
  excerpt : String := ""
  score : Option ℚ := none
  rrf_rank : Option ℕ := none
  rrf_score : Option ℚ := none
  rerank_score : Option ℚ := none
  payload : String := ""
deriving DecidableEq, Repr

variable {α : Type*}

/-- One insertion step of a stable descending sort: `x` is placed after every
element whose key is `≥ key x` and before the first element whose key is
strictly smaller. -/
def insertDesc (key : α → ℚ) (x : α) : List α → List α
  | [] => [x]
  | y :: ys => if key y ≤ key x then x :: y :: ys else y :: insertDesc key x ys

/-- Stable sort, descending by `key`: the embedding of Python's
`sorted(xs, key=..., reverse=True)` (Timsort is stable and `reverse=True`
keeps equal elements in input order, so any stable descending sort has the
same output). -/
def sortDesc (key : α → ℚ) : List α → List α
  | [] => []
  | x :: xs => insertDesc key x (sortDesc key xs)

theorem mem_insertDesc (key : α → ℚ) (x a : α) (l : List α) :
    a ∈ insertDesc key x l ↔ a = x ∨ a ∈ l := by
  induction l with
  | nil => simp [insertDesc]
  | cons y ys ih =>
    by_cases h : key y ≤ key x
    · simp [insertDesc, h]
    · simp only [insertDesc, if_neg h, List.mem_cons, ih]
      tauto

theorem insertDesc_perm (key : α → ℚ) (x : α) (l : List α) :
    List.Perm (insertDesc key x l) (x :: l) := by
  induction l with
  | nil => simp [insertDesc]
  | cons y ys ih =>
    by_cases h : key y ≤ key x
    · simp [insertDesc, h]
    · simp only [insertDesc, if_neg h]
      exact List.Perm.trans (ih.cons y) (List.Perm.swap x y ys)

theorem sortDesc_perm (key : α → ℚ) (l : List α) : List.Perm (sortDesc key l) l := by
  induction l with
  | nil => simp [sortDesc]
  | cons x xs ih =>
    exact List.Perm.trans (insertDesc_perm key x (sortDesc key xs)) (ih.cons x)

theorem insertDesc_pairwise (key : α → ℚ) (r : α → α → Prop)
    (hr : ∀ a b, r a b → key b ≤ key a) (x : α) (l : List α)
    (hl : l.Pairwise r)
    (h1 : ∀ y ∈ l, key x < key y → r y x)
    (h2 : ∀ y ∈ l, key y ≤ key x → r x y) :
    (insertDesc key x l).Pairwise r := by
  induction l with
  | nil => simp [insertDesc]
  | cons y ys ih =>
    rcases List.pairwise_cons.mp hl with ⟨hy, hys⟩
    by_cases h : key y ≤ key x
    · rw [insertDesc, if_pos h, List.pairwise_cons]
      refine ⟨?_, hl⟩
      intro z hz
      rcases List.mem_cons.mp hz with rfl | hz'
      · exact h2 z (List.mem_cons_self _ _) h
      · exact h2 z (List.mem_cons_of_mem _ hz') (le_trans (hr _ _ (hy z hz')) h)
    · rw [insertDesc, if_neg h, List.pairwise_cons]
      constructor
      · intro z hz
        rcases (mem_insertDesc key x z ys).mp hz with rfl | hz'
        · exact h1 y (List.mem_cons_self _ _) (lt_of_not_le h)
        · exact hy z hz'
      · exact ih hys (fun z hz hk => h1 z (List.mem_cons_of_mem _ hz) hk)
          (fun z hz hk => h2 z (List.mem_cons_of_mem _ hz) hk)

theorem sortDesc_sorted (key : α → ℚ) (l : List α) :
    (sortDesc key l).Pairwise (fun a b => key b ≤ key a) := by
  induction l with
  | nil => simp [sortDesc]
  | cons x xs ih =>
    refine insertDesc_pairwise key _ (fun a b h => h) x _ ih ?_ ?_
    · exact fun y _ h => le_of_lt h
    · exact fun y _ h => h

/-- Stability: if the input list carries strictly increasing indices, the
sorted output is ordered lexicographically by (key descending, index
ascending) — ties in the key are broken by input order. -/
theorem sortDesc_stable (key : α → ℚ) (idx : α → ℕ) (l : List α)
    (h : l.Pairwise (fun a b => idx a < idx b)) :
    (sortDesc key l).Pairwise
      (fun a b => key b < key a ∨ (key a = key b ∧ idx a < idx b)) := by
  induction l with
  | nil => simp [sortDesc]
  | cons x xs ih =>
    rcases List.pairwise_cons.mp h with ⟨hx, hxs⟩
    refine insertDesc_pairwise key _ ?_ x _ (ih hxs) ?_ ?_
    · rintro a b (hlt | ⟨heq, _⟩)
      · exact le_of_lt hlt
      · exact le_of_eq heq.symm
    · intro y hy hk
      exact Or.inl hk
    · intro y hy hk
      have hmem : y ∈ xs := ((sortDesc_perm key xs).mem_iff).mp hy
      rcases lt_or_eq_of_le hk with hlt | heq
      · exact Or.inl hlt
      · exact Or.inr ⟨heq.symm, hx y hmem⟩

/-- A list whose keys are already strictly descending is a fixed point of the
sort. -/
theorem sortDesc_of_strictDesc (key : α → ℚ) (l : List α)
    (h : l.Pairwise (fun a b => key b < key a)) :
    sortDesc key l = l := by
  induction l with
  | nil => rfl
  | cons x xs ih =>
    rcases List.pairwise_cons.mp h with ⟨hx, hxs⟩
    rw [sortDesc, ih hxs]
    cases xs with
    | nil => rfl
    | cons y ys =>
      have : key y ≤ key x := le_of_lt (hx y (List.mem_cons_self _ _))
      simp [insertDesc, this]

theorem sortDesc_length (key : α → ℚ) (l : List α) :
    (sortDesc key l).length = l.length :=
  (sortDesc_perm key l).length_eq

/-! ## Fusion kernel — `services/api/fusion.py` -/

/-- One row of the three dictionaries `scores` / `docs` / `top_ranks` held by
`reciprocal_rank_fusion`.  The three dicts share their key set and insertion
order, so they are embedded as one association list in first-observed order:
`doc_id` the key, `score` the accumulated RRF score, `doc` the copy stored on
first observation, `bestRank` the best (smallest) rank seen so far. -/
structure Entry where
  doc_id : String
  score : ℚ
  doc : RDoc
  bestRank : ℕ
deriving DecidableEq, Repr

/-- The RRF contribution of one appearance at 0-based `rank`:
`1.0 / (k + rank + 1)`. -/
def rrfContrib (k rank : ℕ) : ℚ := 1 / ((k : ℚ) + (rank : ℚ) + 1)

/-- The effect of seeing a previously observed doc again at `rank`: add the
RRF contribution to its accumulated score and lower its best rank if this
appearance beats it (`scores[doc_id] += ...; if rank < top_ranks[doc_id]`). -/
def bumpEntry (k rank : ℕ) (e : Entry) : Entry :=
  { e with score := e.score + rrfContrib k rank,
           bestRank := if rank < e.bestRank then rank else e.bestRank }

/-- The entry created on first observation of a doc at `rank`: score starts
at `0.0` and immediately receives this appearance's contribution, the doc
copy is stored, and the best rank is this rank. -/
def freshEntry (k rank : ℕ) (d : RDoc) : Entry :=
  { doc_id := d.file_path, score := rrfContrib k rank, doc := d, bestRank := rank }

/-- Processing one doc at a given rank: initialize the entry on first
observation, add the RRF contribution, track the best rank
(`fusion.py` lines 51-62). -/
def updateEntry (k rank : ℕ) (d : RDoc) (entries : List Entry) : List Entry :=
  if entries.any (fun e => e.doc_id == d.file_path) then
    entries.map (fun e => if e.doc_id == d.file_path then bumpEntry k rank e else e)
  else
    entries ++ [freshEntry k rank d]

/-- The inner loop `for rank, doc in enumerate(results)`: docs with a falsy id
are skipped. -/
def accumList (k : ℕ) : ℕ → List Entry → List RDoc → List Entry
  | _, entries, [] => entries
  | rank, entries, d :: ds =>
      accumList k (rank + 1)
        (if d.file_path == "" then entries else updateEntry k rank d entries) ds

/-- The outer loop `for list_idx, results in enumerate(result_lists)`. -/
def accumLists (k : ℕ) (entries : List Entry) : List (List RDoc) → List Entry
  | [] => entries
  | l :: ls => accumLists k (accumList k 0 entries l) ls

/-- The top-rank bonus (`fusion.py` lines 64-70): `+0.05` for best rank 0,
else `+0.02` for best rank `≤ 2`. -/
def applyBonus (e : Entry) : Entry :=
  if e.bestRank = 0 then { e with score := e.score + 5 / 100 }
  else if e.bestRank ≤ 2 then { e with score := e.score + 2 / 100 }
  else e

/-- Building the result list (`fusion.py` lines 76-81): each stored doc copy
gets the fused score and `rrf_rank = len(results)`, its 0-based position. -/
def decorate : ℕ → List Entry → List RDoc
  | _, [] => []
  | i, e :: es => { e.doc with score := some e.score, rrf_rank := some i } :: decorate (i + 1) es

/-- `reciprocal_rank_fusion(result_lists, k, id_key="file_path",
score_key="score", top_rank_bonus)` from `fusion.py`. -/
def reciprocal_rank_fusion (result_lists : List (List RDoc)) (k : ℕ)
    (top_rank_bonus : Bool) : List RDoc :=
  let entries := accumLists k [] result_lists
  let entries := if top_rank_bonus then entries.map applyBonus else entries
  decorate 0 (sortDesc (fun e => e.score) entries)

/-- `position_aware_blend`'s per-position step (`fusion.py` lines 108-130):
rerank scores live in a map `String → Option ℚ`; `doc.get("score", 0)` and
`rerank_scores.get(doc_id, 0)` become `Option.getD _ 0`. -/
def blendOne (i : ℕ) (rerank_scores : String → Option ℚ) (d : RDoc) : RDoc :=
  let rrf_score := d.score.getD 0
  let rerank_score := (rerank_scores d.file_path).getD 0
  let rrf_weight : ℚ := if i < 3 then 75 / 100 else if i < 10 then 60 / 100 else 40 / 100
  let rerank_weight : ℚ := 1 - rrf_weight
  { d with rrf_score := some rrf_score,
           rerank_score := some rerank_score,
           score := some (rrf_weight * rrf_score + rerank_weight * rerank_score) }

/-- The loop `for i, doc in enumerate(rrf_results)` of `position_aware_blend`. -/
def blendAll (rerank_scores : String → Option ℚ) : ℕ → List RDoc → List RDoc
  | _, [] => []
  | i, d :: ds => blendOne i rerank_scores d :: blendAll rerank_scores (i + 1) ds

/-- `position_aware_blend(rrf_results, rerank_scores, id_key="file_path")`
from `fusion.py`: blend position-wise, then re-sort by blended score
descending. -/
def position_aware_blend (rrf_results : List RDoc)
    (rerank_scores : String → Option ℚ) : List RDoc :=
  sortDesc (fun d => d.score.getD 0) (blendAll rerank_scores 0 rrf_results)

/-- `normalize_scores(results, score_key="score")` from `fusion.py`: min-max
normalization to `[0, 1]`; if all scores are equal every score becomes `1.0`. -/
def normalize_scores (results : List RDoc) : List RDoc :=
  if results.isEmpty then results
  else
    let scores := results.map (fun r => r.score.getD 0)
    let min_score := scores.foldl min (scores.headD 0)
    let max_score := scores.foldl max (scores.headD 0)
    if max_score = min_score then
      results.map (fun r => { r with score := some 1 })
    else
      results.map (fun r =>
        { r with score := some ((r.score.getD 0 - min_score) / (max_score - min_score)) })

/-! ### Specification-side descriptions of the RRF score

These restate, directly from the spec's words, what a doc's fused score
should be: the sum of `1/(k+r+1)` over all its appearances, plus the bonus
determined by the best (minimum) rank over all appearances. -/

/-- Sum of RRF contributions of `id`'s appearances in one list, starting the
rank count at `rank`. -/
def listContrib (k : ℕ) (id : String) : ℕ → List RDoc → ℚ
  | _, [] => 0
  | rank, d :: ds =>
      (if d.file_path = id then rrfContrib k rank else 0) + listContrib k id (rank + 1) ds

/-- Total RRF raw score of `id` over all input lists. -/
def totalContrib (k : ℕ) (id : String) (lists : List (List RDoc)) : ℚ :=
  (lists.map (listContrib k id 0)).sum

/-- Rank of the first appearance of `id` in one list (ranks within a list
increase, so this is the minimum rank in that list), or `none`. -/
def listBest (id : String) : ℕ → List RDoc → Option ℕ
  | _, [] => none
  | rank, d :: ds => if d.file_path = id then some rank else listBest id (rank + 1) ds

/-- Minimum of two optional ranks. -/
def minOpt : Option ℕ → Option ℕ → Option ℕ
  | none, b => b
  | some a, none => some a
  | some a, some b => some (min a b)

/-- Best (minimum) 0-based rank of `id` over all input lists, or `none` if it
never appears. -/
def bestRankSpec (id : String) : List (List RDoc) → Option ℕ
  | [] => none
  | l :: ls => minOpt (listBest id 0 l) (bestRankSpec id ls)

/-- The top-rank bonus as a function of the best rank. -/
def bonusFor (b : ℕ) : ℚ := if b = 0 then 5 / 100 else if b ≤ 2 then 2 / 100 else 0

/-- Ids in order of first observation (the insertion order of the `scores`
dict), scanning one list. -/
def discoverList (seen : List String) : List RDoc → List String
  | [] => seen
  | d :: ds =>
      discoverList
        (if d.file_path == "" || seen.any (fun s => s == d.file_path) then seen
         else seen ++ [d.file_path]) ds

/-- Ids in order of first observation over all lists. -/
def discoverAll (seen : List String) : List (List RDoc) → List String
  | [] => seen
  | l :: ls => discoverAll (discoverList seen l) ls

/-! ## Reranker client — `services/api/reranker.py` -/

/-- The `RERANK_PROMPT` template with `query` and `document` substituted. -/
def rerankPrompt (query document : String) : String :=
  "You are a relevance judge. Given a query and a document, determine if the document is relevant.\n\nQuery: "
    ++ query ++ "\n\nDocument:\n" ++ document
    ++ "\n\nIs this document relevant to the query? Answer with only YES or NO."

/-- `Reranker._generate(prompt)`: the LLM backend is a function from prompt to
`Option String`, where `none` models any HTTP failure (non-2xx status,
timeout, unreachable host).  The source catches every exception, logs it, and
returns the empty string; on success it returns the stripped response. -/
def reranker_generate (backend : String → Option String) (prompt : String) : String :=
  match backend prompt with
  | some r => r.trim
  | none => ""

/-- `Reranker.score_document(query, document)`: truncate the doc text to 2000
characters, ask the judge, map the first token to `1.0` / `0.0` / `0.5`. -/
def score_document (backend : String → Option String) (query document : String) : ℚ :=
  let doc_text := document.take 2000
  let response := reranker_generate backend (rerankPrompt query doc_text)
  let response_upper := response.toUpper.trim
  if response_upper.startsWith "YES" then 1
  else if response_upper.startsWith "NO" then 0
  else 1 / 2

/-- The content picked for scoring inside `Reranker.rerank`:
`doc.get(content_key, "")`, falling back to `snippet` then `excerpt` when
falsy. -/
def rerankContent (d : RDoc) : String :=
  if d.content = "" then (if d.snippet = "" then d.excerpt else d.snippet) else d.content

/-- `Reranker.rerank(query, documents, content_key="content",
id_key="file_path", top_k=30, concurrency=5)`: scores the first `top_k` docs
and returns the map `doc_id → score` as a function.  The semaphore only
bounds concurrency; `asyncio.gather` keeps result order, and the map does not
depend on evaluation order.  `score_document` cannot raise (its backend call
catches every exception), so every scored doc lands in the map. -/
def rerank (backend : String → Option String) (query : String)
    (documents : List RDoc) (top_k : ℕ) : String → Option ℚ :=
  (documents.take top_k).foldl
    (fun m d =>
      let s := score_document backend query (rerankContent d)
      fun id => if id = d.file_path then some s else m id)
    (fun _ => none)

/-! ## Searcher — `services/api/searcher.py` -/

/-- `Searcher.get_embedding(text)` (searcher.py lines 48-61): posts to the
embedding backend and returns `data["embeddings"][0]`; any failure raises.
The backend is modelled as `respond : ℕ → String → Except String (List ℚ)`:
its answer (or exception) at the nth backend call for a given text.  There is
no cache: every call performs a backend call, so the call counter always
advances. -/
def searcher_get_embedding (respond : ℕ → String → Except String (List ℚ))
    (calls : ℕ) (text : String) : ℕ × Except String (List ℚ) :=
  (calls + 1, respond calls text)

/-- One raw row returned by a LanceDB table search. -/
structure VHit where
  file_path : String
  content : String
  distance : ℚ
deriving DecidableEq, Repr

/-- Turning a table row into a result dict (searcher.py lines 100-119):
excerpt truncation and distance-to-similarity `1/(1+d)` conversion. -/
def hitToDoc (tableName : String) (r : VHit) : RDoc :=
  { file_path := r.file_path
    content := r.content
    excerpt := if 300 < r.content.length then r.content.take 300 ++ "..." else r.content
    score := some (1 / (1 + r.distance))
    payload := tableName }

/-- `Searcher.vector_search` (searcher.py lines 63-125).  `query_embedding`
is the outcome of the un-guarded `get_embedding` call: if it is an error, the
exception propagates out of `vector_search` (there is no handler around it).
Each selected table's search outcome is a parameter; per-table errors are
caught by the `try/except` inside the loop and the failing table contributes
nothing.  Results are merged, sorted by score descending, trimmed. -/
def vector_search (query_embedding : Except String (List ℚ))
    (tables : List (String × Except String (List VHit))) (limit : ℕ) :
    Except String (List RDoc) :=
  match query_embedding with
  | Except.error e => Except.error e
  | Except.ok _ =>
    let results := tables.foldl
      (fun acc t =>
        match t.2 with
        | Except.error _ => acc
        | Except.ok rows => acc ++ rows.map (hitToDoc t.1)) []
    Except.ok ((sortDesc (fun d => d.score.getD 0) results).take limit)

/-- `Searcher.hybrid_search` (searcher.py lines 145-177): BM25 and vector
search run under `asyncio.gather` with no `return_exceptions`, so an
exception from the vector branch propagates.  On success the two lists are
fused with RRF (`k=60`, default bonus), normalized, and trimmed. -/
def hybrid_search (bm25_results : List RDoc)
    (query_embedding : Except String (List ℚ))
    (tables : List (String × Except String (List VHit))) (limit : ℕ) :
    Except String (List RDoc) :=
  match vector_search query_embedding tables 30 with
  | Except.error e => Except.error e
  | Except.ok vector_results =>
    Except.ok
      ((normalize_scores
          (reciprocal_rank_fusion [bm25_results, vector_results] 60 true)).take limit)

/-- The original-query weighting step of `Searcher.query_search`
(searcher.py lines 209-211): `if len(all_results) > 1:
all_results.insert(0, all_results[0])`. -/
def weightOriginal (all_results : List (List RDoc)) : List (List RDoc) :=
  if 1 < all_results.length then all_results.headD [] :: all_results else all_results

/-- `Searcher.query_search` (searcher.py lines 179-230) after query
expansion: `queries` is the expanded query list (first element the original
query), `hyb` maps each query to its `hybrid_search(..., limit=30)` result,
and `backend` is the rerank LLM.  The original query's list is duplicated at
index 0 when there is more than one query, everything is fused with RRF
(`k=60`), the fused top 30 is reranked and blended when `use_reranking` and
the fused list is nonempty, and the top `limit` is returned. -/
def query_search (query : String) (queries : List String)
    (hyb : String → List RDoc) (backend : String → Option String)
    (limit : ℕ) (use_reranking : Bool) : List RDoc :=
  let all_results := queries.map hyb
  let all_results := weightOriginal all_results
  let fused := reciprocal_rank_fusion all_results 60 true
  let fused :=
    if use_reranking && !fused.isEmpty then
      position_aware_blend fused (rerank backend query fused 30)
    else fused
  fused.take limit

/-! ## Indexer — `services/api/indexer.py` -/

/-- The mutable state of `Indexer.get_embedding`: the process-wide
`embedding_cache` dict plus a backend-call counter (used to express "the
backend call is skipped"). -/
structure EmbedCache where
  cache : List (String × List ℚ)
  calls : ℕ
deriving DecidableEq, Repr

/-- `Indexer.get_embedding(text)` (indexer.py lines 73-95): the cache key is
a content hash (`hashlib.md5(text.encode()).hexdigest()`, modelled by the
parameter `hashFn`); a hit returns the cached vector without touching the
backend, a miss calls the backend (advancing the call counter) and caches a
successful result. -/
def indexer_get_embedding (hashFn : String → String)
    (respond : ℕ → String → Except String (List ℚ))
    (st : EmbedCache) (text : String) : EmbedCache × Except String (List ℚ) :=
  let cache_key := hashFn text
  match st.cache.find? (fun p => p.1 == cache_key) with
  | some p => (st, Except.ok p.2)
  | none =>
    match respond st.calls text with
    | Except.ok embedding =>
        ({ cache := (cache_key, embedding) :: st.cache, calls := st.calls + 1 },
         Except.ok embedding)
    | Except.error e => ({ st with calls := st.calls + 1 }, Except.error e)

/-- Whether a character is matched by the regex class `\s` (ASCII range). -/
def isPyWs (c : Char) : Bool :=
  c = ' ' || c = '\t' || c = '\n' || c = '\r' || c = '\x0b' || c = '\x0c'

/-- Whether the regex `^###?\s` matches at this position (given that the
position is a line start): `##` or `###` followed by a whitespace
character. -/
def headerAhead : List Char → Bool
  | '#' :: '#' :: '#' :: c :: _ => isPyWs c
  | '#' :: '#' :: c :: _ => isPyWs c
  | _ => false

/-- The section splitter
`re.split(r'\n\n+|(?=^###?\s)', content, flags=re.MULTILINE)`
(indexer.py line 103): pieces are separated by runs of two-or-more newlines
(consumed) and by zero-width matches at line starts immediately before `## `
or `### `.  Arguments: remaining input, a flag for being inside a
newline-run separator, a line-start flag, and the current piece
(reversed). -/
def splitSections : List Char → Bool → Bool → List Char → List (List Char)
  | [], _, _, cur => [cur.reverse]
  | '\n' :: rest, true, _, cur => splitSections rest true true cur
  | '\n' :: '\n' :: rest, false, _, cur => cur.reverse :: splitSections rest true true []
  | '\n' :: rest, false, _, cur => splitSections rest false true ('\n' :: cur)
  | c :: rest, _, atLineStart, cur =>
      if atLineStart && headerAhead (c :: rest) then
        cur.reverse :: splitSections rest false false [c]
      else splitSections rest false false (c :: cur)

/-- The accumulation loop of `Indexer._chunk_document_sync` (indexer.py lines
105-136): `cap = chunk_size * 4` and `ovl = chunk_overlap * 4` are the
character budgets.  Each section is stripped and skipped if empty; if
appending would exceed `cap` and the current chunk is nonempty, the current
chunk is emitted (stripped) and the next one starts with the trailing `ovl`
characters of the old one plus the section; otherwise the section is
appended with a blank-line separator.  The final nonempty chunk is
emitted. -/
def chunkLoop (cap ovl : ℕ) : List String → String → List String
  | [], current_chunk =>
      if current_chunk.trim ≠ "" then [current_chunk.trim] else []
  | s :: rest, current_chunk =>
      let sec := s.trim
      if sec = "" then chunkLoop cap ovl rest current_chunk
      else if cap < current_chunk.length + sec.length then
        if current_chunk ≠ "" then
          current_chunk.trim ::
            chunkLoop cap ovl rest
              (current_chunk.drop (current_chunk.length - ovl) ++ "\n\n" ++ sec)
        else chunkLoop cap ovl rest sec
      else
        chunkLoop cap ovl rest
          (if current_chunk ≠ "" then current_chunk ++ "\n\n" ++ sec else sec)

/-- `Indexer._chunk_document_sync(content, metadata)` reduced to the list of
chunk contents: the metadata is replicated verbatim onto every chunk and
`chunk_index` equals the chunk's position in the returned list. -/
def chunk_document (cap ovl : ℕ) (content : String) : List String :=
  let sections := (splitSections content.data false true []).map List.asString
  chunkLoop cap ovl sections ""

/-- One row of a LanceDB chunk table (the `DocumentChunk` schema restricted
to the fields the claims speak about; the remaining metadata columns are
replicated from the file's metadata exactly like these). -/
structure VRow where
  id : String
  vector : List ℚ
  file_path : String
  file_hash : String
  chunk_index : ℕ
  content : String
deriving DecidableEq, Repr

/-- One row of the document-level FTS store. -/
structure FtsDoc where
  file_path : String
  title : String
  content : String
  vault : String
deriving DecidableEq, Repr

/-- The two persistent stores touched by `index_file`: the vector table and
the FTS table. -/
structure StoreState where
  vec : List VRow
  fts : List FtsDoc
deriving DecidableEq, Repr

/-- The environment of one indexing pass: `hashFn` models
`hashlib.md5(content.encode()).hexdigest()`, `parseBody` models
`frontmatter.loads(content).content` (the frontmatter library is an external
dependency; for content with no leading `---` fence it is the identity),
`embedOf` the embedding backend outcome per input text (the per-pass cache
makes the outcome a function of the text), and `cap`/`ovl` are
`chunk_size * 4` / `chunk_overlap * 4`. -/
structure IndexerEnv where
  hashFn : String → String
  parseBody : String → String
  embedOf : String → Except String (List ℚ)
  cap : ℕ
  ovl : ℕ

/-- Modelled from the spec: `fts_index.upsert_document` — the `fts_index`
module is not among the sources; §4.6 of the spec specifies it as an atomic
replace of the single FTS row for `file_path`. -/
def upsert_document (fts : List FtsDoc) (file_path title content vault : String) :
    List FtsDoc :=
  fts.filter (fun d => d.file_path ≠ file_path) ++
    [{ file_path := file_path, title := title, content := content, vault := vault }]

/-- The embedding loop of `index_file` (indexer.py lines 263-290, with no
cancellation requested): each chunk's text is capped to 8000 characters and
embedded; a chunk whose embedding call raises is logged and skipped; a
successful chunk becomes a `DocumentChunk` record with
`id = file_hash + "_" + chunk_index`. -/
def buildRecords (env : IndexerEnv) (chunks : List String)
    (fileHash filePath : String) : List VRow :=
  chunks.enum.filterMap
    (fun ic =>
      match env.embedOf (ic.2.take 8000) with
      | Except.ok embedding =>
          some { id := fileHash ++ "_" ++ toString ic.1
                 vector := embedding
                 file_path := filePath
                 file_hash := fileHash
                 chunk_index := ic.1
                 content := ic.2 }
      | Except.error _ => none)

/-- `Indexer.index_file(file_path, table_name)` (indexer.py lines 242-318),
with the file's raw content passed in (`none` models an unreadable file) and
no cancellation requested.  Returns the new store state and the number of
chunks written.  Steps: exclusion check; skip when unreadable or stripped
content shorter than 50; hash and body extraction; chunking; per-chunk
embedding with failures skipped; if any record was built, delete the rows
whose `file_hash` equals the hash of the *current* content, append the new
records and upsert the whole-document FTS row; return `len(records)`. -/
def index_file (env : IndexerEnv) (excluded : Bool) (content : Option String)
    (filePath title tableName : String) (st : StoreState) : StoreState × ℕ :=
  if excluded then (st, 0)
  else
    match content with
    | none => (st, 0)
    | some c =>
      if c.trim.length < 50 then (st, 0)
      else
        let file_hash := env.hashFn c
        let body := env.parseBody c
        let chunks := chunk_document env.cap env.ovl body
        if chunks.isEmpty then (st, 0)
        else
          let records := buildRecords env chunks file_hash filePath
          if records.isEmpty then (st, 0)
          else
            ({ vec := st.vec.filter (fun r => r.file_hash ≠ file_hash) ++ records,
               fts := upsert_document st.fts filePath title body tableName },
             records.length)

/-! ## Concrete inputs used by counterexamples and witnesses -/

/-- A vector row left over from a previous ingest of `/vault/work/b.md`
(content hash `h-old`). -/
def oldRow : VRow :=
  { id := "h-old_0", vector := [1], file_path := "/vault/work/b.md",
    file_hash := "h-old", chunk_index := 0, content := "old body" }

/-- The modified content of `/vault/work/b.md`: 60 characters, one section. -/
def newContent60 : String := String.mk (List.replicate 60 'n')

/-- An indexing environment where the modified content hashes to `h-new`
(every other content, in particular the old one, hashes to `h-old`), the
file has no frontmatter, and chunk embedding succeeds. -/
def envC1 : IndexerEnv :=
  { hashFn := fun c => if c = newContent60 then "h-new" else "h-old"
    parseBody := fun c => c
    embedOf := fun _ => Except.ok [1]
    cap := 2048
    ovl := 200 }

/-- A document whose stripped content is exactly 50 characters. -/
def content50 : String := String.mk (List.replicate 50 'a')

/-- A document whose stripped content is exactly 49 characters. -/
def content49 : String := String.mk (List.replicate 49 'a')

/-- A benign indexing environment: embedding succeeds, no frontmatter. -/
def envOk : IndexerEnv :=
  { hashFn := fun _ => "h"
    parseBody := fun c => c
    embedOf := fun _ => Except.ok [1]
    cap := 2048
    ovl := 200 }

/-- An indexing environment whose embedding backend fails on every input. -/
def envEmbedDown : IndexerEnv :=
  { hashFn := fun _ => "h"
    parseBody := fun c => c
    embedOf := fun _ => Except.error "embedding backend unreachable"
    cap := 2048
    ovl := 200 }

/-- A backend-response function returning a different vector on every call
(call counter `n` is embedded in the vector), distinguishing "served from
cache" from "served by a fresh backend call". -/
def respByCall : ℕ → String → Except String (List ℚ) := fun n _ => Except.ok [(n : ℚ)]

/-- Two concrete docs used by the rerank counterexample. -/
def dA : RDoc := { file_path := "a", content := "alpha notes" }

/-- Second concrete doc for the rerank counterexample. -/
def dB : RDoc := { file_path := "b", content := "beta notes" }

/-- A hybrid-search stub returning the same two docs for every query. -/
def hybOne : String → List RDoc := fun _ => [dA, dB]

/-- An LLM backend that fails (HTTP error) on every prompt. -/
def failingBackend : String → Option String := fun _ => none

/-! ## Claim C3 — embedding failure in `vector_search` / `hybrid_search` -/

/-- C3 (corrected): when the embedding backend call fails, `vector_search`
does not return an empty list — the exception propagates out (the call at
searcher.py line 73 sits outside the per-table `try`), and
`asyncio.gather` makes `hybrid_search` re-raise it instead of returning the
BM25 branch's results. -/
theorem C3_embedding_failure_propagates (e : String) (bm25_results : List RDoc)
    (tables : List (String × Except String (List VHit))) (limit : ℕ) :
    vector_search (Except.error e) tables limit = Except.error e ∧
    hybrid_search bm25_results (Except.error e) tables limit = Except.error e :=
  ⟨rfl, rfl⟩

/-- C3 counterexample: with the embedding call failing with a timeout,
`vector_search` is an error, not the empty result list, and `hybrid_search`
is the same error rather than the BM25 branch's (fused, normalized) single
result. -/
theorem C3_counterexample :
    vector_search (Except.error "read timeout") [] 30 ≠
      Except.ok ([] : List RDoc) ∧
    hybrid_search [{ file_path := "note.md" }] (Except.error "read timeout") [] 10 =
      Except.error "read timeout" ∧
    (Except.error "read timeout" : Except String (List RDoc)) ≠
      Except.ok [{ file_path := "note.md" }] := by
  refine ⟨?_, rfl, ?_⟩ <;> intro h <;> exact Except.noConfusion h

/-! ## Claim C9 — the embedding cache -/

/-- C9 (corrected): the Indexer's `get_embedding` maintains the MD5-keyed
in-process cache — after a successful call for a text, a repeat call for the
same text is a cache hit: it leaves the state (including the backend-call
counter) unchanged and returns the identical vector.  The Searcher's
`get_embedding`, by contrast, has no cache: every call, repeated or not,
performs a backend call (the call counter always advances). -/
theorem C9_indexer_caches_searcher_does_not :
    (∀ (hashFn : String → String) (respond : ℕ → String → Except String (List ℚ))
       (st st1 : EmbedCache) (text : String) (v : List ℚ),
        indexer_get_embedding hashFn respond st text = (st1, Except.ok v) →
        indexer_get_embedding hashFn respond st1 text = (st1, Except.ok v)) ∧
    (∀ (respond : ℕ → String → Except String (List ℚ)) (calls : ℕ) (text : String),
        (searcher_get_embedding respond calls text).1 = calls + 1) := by
  constructor
  · intro hashFn respond st st1 text v h
    rw [indexer_get_embedding] at h ⊢
    cases hfind : st.cache.find? (fun p => p.1 == hashFn text) with
    | some p =>
      rw [hfind] at h
      rcases Prod.mk.injEq .. ▸ h with ⟨rfl, hv⟩
      rw [hfind]
      exact congrArg _ hv
    | none =>
      rw [hfind] at h
      cases hresp : respond st.calls text with
      | ok emb =>
        rw [hresp] at h
        rcases Prod.mk.injEq .. ▸ h with ⟨hst, hv⟩
        subst hst
        simp only [List.find?]
        have : ((hashFn text, emb).1 == hashFn text) = true := by simp
        rw [this]
        exact congrArg _ hv
      | error msg =>
        rw [hresp] at h
        rcases Prod.mk.injEq .. ▸ h with ⟨_, hv⟩
        exact absurd hv (by simp)
  · intro respond calls text
    rfl

/-- C9 witness: a concrete run of the Indexer cache — the first call from an
empty cache stores the vector, the second returns it with the call counter
still at 1; and the Searcher call counter moves from 0 to 1. -/
theorem C9_witness :
    indexer_get_embedding (fun t => t) (fun _ _ => Except.ok [3])
        { cache := [("q", [3])], calls := 1 } "q" =
      ({ cache := [("q", [3])], calls := 1 }, Except.ok [3]) ∧
    (searcher_get_embedding (fun _ _ => Except.ok [3]) 0 "q").1 = 0 + 1 :=
  ⟨C9_indexer_caches_searcher_does_not.1 (fun t => t) (fun _ _ => Except.ok [3])
      { cache := [], calls := 0 } { cache := [("q", [3])], calls := 1 } "q" [3] rfl,
   C9_indexer_caches_searcher_does_not.2 (fun _ _ => Except.ok [3]) 0 "q"⟩

/-- C9 counterexample: in the Searcher there is no cache, so a repeated
embed call for the same text is served by a fresh backend call — the call
counter advances to 2 and, with a backend whose answer varies across calls,
the returned vector is not byte-identical to the first one. -/
theorem C9_counterexample :
    (searcher_get_embedding respByCall 0 "q").2 = Except.ok [0] ∧
    (searcher_get_embedding respByCall 1 "q").2 = Except.ok [1] ∧
    (searcher_get_embedding respByCall 1 "q").1 = 2 ∧
    [(1 : ℚ)] ≠ [(0 : ℚ)] :=
  ⟨rfl, rfl, rfl, by with_unfolding_all decide⟩

/-! ## Claim C10 — no store write when every chunk embedding fails -/

/-- C10 (confirmed): if the embedding backend fails for every input text,
`index_file` builds no record, performs neither the delete nor the insert on
the vector table, performs no FTS upsert, and returns 0 — both stores are
exactly as before. -/
theorem C10_total_embedding_failure_writes_nothing (env : IndexerEnv)
    (excluded : Bool) (content : Option String)
    (filePath title tableName : String) (st : StoreState)
    (h : ∀ t, ∃ msg, env.embedOf t = Except.error msg) :
    index_file env excluded content filePath title tableName st = (st, 0) := by
  have hrec : ∀ (chunks : List String) (fileHash : String),
      buildRecords env chunks fileHash filePath = [] := by
    intro chunks fileHash
    rw [buildRecords, List.filterMap_eq_nil_iff]
    intro ic _
    rcases h (ic.2.take 8000) with ⟨msg, hmsg⟩
    simp [hmsg]
  rw [index_file.eq_def]
  cases excluded with
  | true => rfl
  | false =>
    cases content with
    | none => rfl
    | some c =>
      simp only [Bool.false_eq_true, if_false]
      by_cases hlen : c.trim.length < 50
      · rw [if_pos hlen]
      · rw [if_neg hlen]
        by_cases hch : (chunk_document env.cap env.ovl (env.parseBody c)).isEmpty
        · rw [if_pos hch]
        · rw [if_neg hch, hrec]
          rfl

/-- C10 witness: a concrete file of 60 characters whose every chunk
embedding fails — `index_file` leaves the empty stores untouched and
returns 0. -/
theorem C10_witness :
    index_file envEmbedDown false (some newContent60) "/vault/work/b.md" "B" "work"
      { vec := [], fts := [] } = ({ vec := [], fts := [] }, 0) :=
  C10_total_embedding_failure_writes_nothing envEmbedDown false (some newContent60)
    "/vault/work/b.md" "B" "work" { vec := [], fts := [] }
    (fun _ => ⟨"embedding backend unreachable", rfl⟩)

/-! ## Claim C1 — stale chunks of a changed file are not deleted -/

/-- C1 (code bug): re-ingesting `/vault/work/b.md` after its content changed
(hash `h-old` → `h-new`) deletes nothing — the delete predicate at
indexer.py line 295 uses the hash of the *current* content, so the rows with
the old hash for the very same `file_path` survive next to the new ones.
The inline comment ("Delete existing chunks for this file") and the spec
("no chunk with the old `file_hash` remains") both describe the intended
delete-then-insert replacement, which this run violates. -/
theorem C1_stale_rows_survive :
    (index_file envC1 false (some newContent60) "/vault/work/b.md" "B" "work"
        { vec := [oldRow], fts := [] }).1.vec =
      [oldRow,
       { id := "h-new_0", vector := [1], file_path := "/vault/work/b.md",
         file_hash := "h-new", chunk_index := 0, content := newContent60 }] := by
  with_unfolding_all decide

/-! ## Claim C8 — the 50-character skip threshold -/

/-- C8 (corrected): `index_file` skips a file exactly when its stripped
content is shorter than 50 characters (such a file produces zero chunks and
no store write), but the boundary sits one lower than the claim says: a
49-character document is skipped while a 50-character document passes the
`len(content.strip()) < 50` gate and is indexed. -/
theorem C8_skip_threshold :
    (∀ (env : IndexerEnv) (filePath title tableName : String) (st : StoreState)
       (c : String), c.trim.length < 50 →
        index_file env false (some c) filePath title tableName st = (st, 0)) ∧
    (index_file envOk false (some content50) "/vault/work/c.md" "C" "work"
        { vec := [], fts := [] }).2 = 1 ∧
    index_file envOk false (some content49) "/vault/work/c.md" "C" "work"
      { vec := [], fts := [] } = ({ vec := [], fts := [] }, 0) := by
  refine ⟨?_, ?_, ?_⟩
  · intro env filePath title tableName st c hlen
    rw [index_file.eq_def]
    simp only [Bool.false_eq_true, if_false]
    rw [if_pos hlen]
  · with_unfolding_all decide
  · with_unfolding_all decide

/-- C8 witness: the general skip half of the theorem applied to the concrete
49-character document. -/
theorem C8_witness :
    content49.trim.length < 50 ∧
    index_file envOk false (some content49) "/vault/work/d.md" "D" "work"
      { vec := [], fts := [] } = ({ vec := [], fts := [] }, 0) :=
  ⟨by with_unfolding_all decide,
   C8_skip_threshold.1 envOk "/vault/work/d.md" "D" "work" { vec := [], fts := [] }
     content49 (by with_unfolding_all decide)⟩

/-- C8 counterexample: the claim says a document of exactly 50 characters is
skipped; in the code it is indexed — `index_file` writes its single chunk
and returns 1, not 0. -/
theorem C8_counterexample :
    index_file envOk false (some content50) "/vault/work/c.md" "C" "work"
      { vec := [], fts := [] } ≠ ({ vec := [], fts := [] }, 0) := by
  with_unfolding_all decide

/-! ## Claim C5 — double weight for the original query -/

theorem totalContrib_cons (k : ℕ) (id : String) (l : List RDoc)
    (ls : List (List RDoc)) :
    totalContrib k id (l :: ls) = listContrib k id 0 l + totalContrib k id ls := by
  simp [totalContrib]

/-- C5 (confirmed): in `query_search`, when the query set holds more than one
query the original query's hybrid result list (`all_results[0]`, the list of
the first query) is inserted a second time at index 0 of the fusion input,
so its RRF contribution to every doc is counted twice; with a single query
the fusion input is unchanged. -/
theorem C5_original_query_weighted_twice (q : String) (qs : List String)
    (hyb : String → List RDoc) :
    (qs ≠ [] →
      weightOriginal ((q :: qs).map hyb) = hyb q :: (q :: qs).map hyb ∧
      (∀ id, totalContrib 60 id (weightOriginal ((q :: qs).map hyb)) =
        listContrib 60 id 0 (hyb q) + totalContrib 60 id ((q :: qs).map hyb))) ∧
    weightOriginal ([q].map hyb) = [q].map hyb := by
  constructor
  · intro hqs
    have hlen : 1 < ((q :: qs).map hyb).length := by
      cases qs with
      | nil => exact absurd rfl hqs
      | cons a as => simp
    have heq : weightOriginal ((q :: qs).map hyb) = hyb q :: (q :: qs).map hyb := by
      rw [weightOriginal, if_pos hlen]
      rfl
    exact ⟨heq, fun id => by rw [heq, totalContrib_cons]⟩
  · rw [weightOriginal]
    simp

/-- C5 witness: with the expanded query set `["orig", "alt"]`, the original
query's list appears at indices 0 and 1 of the fusion input and the doc `a`
(rank 0 in that list) gets its `1/61` contribution from it twice. -/
theorem C5_witness :
    weightOriginal (("orig" :: ["alt"]).map hybOne) =
      hybOne "orig" :: ("orig" :: ["alt"]).map hybOne ∧
    totalContrib 60 "a" (weightOriginal (("orig" :: ["alt"]).map hybOne)) =
      listContrib 60 "a" 0 (hybOne "orig") +
        totalContrib 60 "a" (("orig" :: ["alt"]).map hybOne) := by
  have h := (C5_original_query_weighted_twice "orig" ["alt"] hybOne).1 (by simp)
  exact ⟨h.1, h.2 "a"⟩

/-! ## Claim C6 — position-aware blending -/

theorem blendAll_length (s : String → Option ℚ) :
    ∀ (l : List RDoc) (j : ℕ), (blendAll s j l).length = l.length := by
  intro l
  induction l with
  | nil => intro j; rfl
  | cons d ds ih => intro j; simp [blendAll, ih]

theorem blendAll_get (s : String → Option ℚ) :
    ∀ (l : List RDoc) (j i : ℕ) (h1 : i < (blendAll s j l).length)
      (h2 : i < l.length),
      (blendAll s j l).get ⟨i, h1⟩ = blendOne (j + i) s (l.get ⟨i, h2⟩) := by
  intro l
  induction l with
  | nil => intro j i h1 h2; exact absurd h2 (by simp)
  | cons d ds ih =>
    intro j i h1 h2
    cases i with
    | zero => rfl
    | succ i' =>
      have h1' : i' < (blendAll s (j + 1) ds).length := by
        have := h1
        simp only [blendAll, List.length_cons] at this
        omega
      have h2' : i' < ds.length := by
        simp only [List.length_cons] at h2
        omega
      have : (blendAll s j (d :: ds)).get ⟨i' + 1, h1⟩ =
          (blendAll s (j + 1) ds).get ⟨i', h1'⟩ := rfl
      rw [this, ih (j + 1) i' h1' h2']
      congr 1
      omega

theorem blendAll_mem (s : String → Option ℚ) :
    ∀ (l : List RDoc) (j : ℕ) (b : RDoc), b ∈ blendAll s j l →
      ∃ i, ∃ h : i < l.length, b = blendOne (j + i) s (l.get ⟨i, h⟩) := by
  intro l
  induction l with
  | nil => intro j b hb; exact absurd hb (by simp [blendAll])
  | cons d ds ih =>
    intro j b hb
    rcases List.mem_cons.mp hb with rfl | hb'
    · exact ⟨0, by simp, rfl⟩
    · rcases ih (j + 1) b hb' with ⟨i, h, heq⟩
      refine ⟨i + 1, by simpa using Nat.succ_lt_succ h, ?_⟩
      rw [heq]
      congr 1
      omega

/-- C6 (confirmed): `position_aware_blend` keeps the list length; the doc at
pre-blend position `i` receives blended score `0.75·rrf + 0.25·rerank` for
`i < 3`, `0.60·rrf + 0.40·rerank` for `3 ≤ i < 10`, `0.40·rrf + 0.60·rerank`
for `i ≥ 10`, with a missing rerank score read as 0; the blended records
carry their `rrf_score` and `rerank_score`; and the output is re-sorted by
blended score descending. -/
theorem C6_position_aware_blend_spec (rrf_results : List RDoc)
    (rerank_scores : String → Option ℚ) :
    (position_aware_blend rrf_results rerank_scores).length = rrf_results.length ∧
    (∀ i (h : i < rrf_results.length),
        blendOne i rerank_scores (rrf_results.get ⟨i, h⟩) ∈
          position_aware_blend rrf_results rerank_scores) ∧
    (∀ b ∈ position_aware_blend rrf_results rerank_scores,
        ∃ i, ∃ h : i < rrf_results.length,
          b = blendOne i rerank_scores (rrf_results.get ⟨i, h⟩)) ∧
    (∀ i (h : i < rrf_results.length),
        (blendOne i rerank_scores (rrf_results.get ⟨i, h⟩)).score =
          some
            (if i < 3 then
              75 / 100 * ((rrf_results.get ⟨i, h⟩).score.getD 0) +
                25 / 100 * ((rerank_scores (rrf_results.get ⟨i, h⟩).file_path).getD 0)
             else if i < 10 then
              60 / 100 * ((rrf_results.get ⟨i, h⟩).score.getD 0) +
                40 / 100 * ((rerank_scores (rrf_results.get ⟨i, h⟩).file_path).getD 0)
             else
              40 / 100 * ((rrf_results.get ⟨i, h⟩).score.getD 0) +
                60 / 100 * ((rerank_scores (rrf_results.get ⟨i, h⟩).file_path).getD 0)) ∧
        (blendOne i rerank_scores (rrf_results.get ⟨i, h⟩)).rrf_score =
          some ((rrf_results.get ⟨i, h⟩).score.getD 0) ∧
        (blendOne i rerank_scores (rrf_results.get ⟨i, h⟩)).rerank_score =
          some ((rerank_scores (rrf_results.get ⟨i, h⟩).file_path).getD 0) ∧
        (blendOne i rerank_scores (rrf_results.get ⟨i, h⟩)).file_path =
          (rrf_results.get ⟨i, h⟩).file_path) ∧
    (position_aware_blend rrf_results rerank_scores).Pairwise
      (fun a b => b.score.getD 0 ≤ a.score.getD 0) := by
  refine ⟨?_, ?_, ?_, ?_, ?_⟩
  · rw [position_aware_blend, sortDesc_length, blendAll_length]
  · intro i h
    have h1 : i < (blendAll rerank_scores 0 rrf_results).length := by
      rw [blendAll_length]; exact h
    have := blendAll_get rerank_scores rrf_results 0 i h1 h
    rw [Nat.zero_add] at this
    have hmem : blendOne i rerank_scores (rrf_results.get ⟨i, h⟩) ∈
        blendAll rerank_scores 0 rrf_results := this ▸ List.get_mem _ _ _
    exact (sortDesc_perm (fun d => d.score.getD 0) _).mem_iff.mpr hmem
  · intro b hb
    rw [position_aware_blend] at hb
    have hb' : b ∈ blendAll rerank_scores 0 rrf_results :=
      (sortDesc_perm (fun d => d.score.getD 0) _).mem_iff.mp hb
    rcases blendAll_mem rerank_scores rrf_results 0 b hb' with ⟨i, h, heq⟩
    exact ⟨i, h, by rwa [Nat.zero_add] at heq⟩
  · intro i h
    refine ⟨?_, rfl, rfl, rfl⟩
    rw [blendOne]
    by_cases h3 : i < 3
    · simp only [if_pos h3]
      norm_num
    · by_cases h10 : i < 10
      · simp only [if_neg h3, if_pos h10]
        norm_num
      · simp only [if_neg h3, if_neg h10]
        norm_num
  · exact sortDesc_sorted _ _

/-- C6 witness: the spec formula evaluated at position 0 of a concrete
single-doc list with no rerank score for it. -/
theorem C6_witness :
    (position_aware_blend [dA] (fun _ => none)).length = 1 ∧
    (blendOne 0 (fun _ => none) dA).score = some (75 / 100 * 0 + 25 / 100 * 0) := by
  have h := C6_position_aware_blend_spec [dA] (fun _ => none)
  refine ⟨h.1, ?_⟩
  have h4 := h.2.2.2.1 0 (by simp)
  simpa [dA] using h4.1

/-! ## Claim C4 — rerank degradation when the LLM backend fails -/

theorem score_document_of_backend_none (backend : String → Option String)
    (hb : ∀ p, backend p = none) (query document : String) :
    score_document backend query document = 1 / 2 := by
  have h1 : (("" : String).toUpper.trim.startsWith "YES") = false := by
    with_unfolding_all decide
  have h2 : (("" : String).toUpper.trim.startsWith "NO") = false := by
    with_unfolding_all decide
  simp [score_document, reranker_generate, hb, h1, h2]

theorem rerank_fold_of_backend_none (backend : String → Option String)
    (hb : ∀ p, backend p = none) (query : String) :
    ∀ (l : List RDoc) (m : String → Option ℚ) (d : RDoc),
      (d ∈ l ∨ m d.file_path = some (1 / 2)) →
      (l.foldl
          (fun m' d' =>
            let s := score_document backend query (rerankContent d')
            fun id => if id = d'.file_path then some s else m' id) m) d.file_path =
        some (1 / 2) := by
  intro l
  induction l with
  | nil =>
    intro m d hd
    rcases hd with hmem | hm
    · exact absurd hmem (by simp)
    · exact hm
  | cons x xs ih =>
    intro m d hd
    rw [List.foldl_cons]
    apply ih
    rcases hd with hmem | hm
    · rcases List.mem_cons.mp hmem with rfl | hmem'
      · right
        simp [score_document_of_backend_none backend hb]
      · exact Or.inl hmem'
    · right
      by_cases hpath : d.file_path = x.file_path
      · simp [hpath, score_document_of_backend_none backend hb]
      · simpa [hpath] using hm

/-- C4 (corrected): when the rerank backend fails, `_generate` swallows the
error and returns the empty string, `score_document` parses it as neither
YES nor NO and returns `0.5`, so a doc whose scoring call failed is *not*
omitted from the map — every doc of the reranked window is mapped to `0.5`.
`query_search(..., use_reranking=True)` still completes, but it returns the
position-aware blend of the fused list with those `0.5` scores trimmed to
`limit` — not the plain RRF-fused top `limit`. -/
theorem C4_backend_failure_half_scores_blend :
    (∀ (backend : String → Option String), (∀ p, backend p = none) →
      ∀ (query : String) (documents : List RDoc) (top_k : ℕ) (d : RDoc),
        d ∈ documents.take top_k →
        rerank backend query documents top_k d.file_path = some (1 / 2)) ∧
    (∀ (backend : String → Option String), (∀ p, backend p = none) →
      ∀ (query : String) (queries : List String) (hyb : String → List RDoc)
        (limit : ℕ),
        query_search query queries hyb backend limit true =
          (if (reciprocal_rank_fusion (weightOriginal (queries.map hyb)) 60
                true).isEmpty then
             reciprocal_rank_fusion (weightOriginal (queries.map hyb)) 60 true
           else
             position_aware_blend
               (reciprocal_rank_fusion (weightOriginal (queries.map hyb)) 60 true)
               (rerank backend query
                 (reciprocal_rank_fusion (weightOriginal (queries.map hyb)) 60 true)
                 30)).take limit) := by
  constructor
  · intro backend hb query documents top_k d hd
    rw [rerank]
    exact rerank_fold_of_backend_none backend hb query (documents.take top_k)
      (fun _ => none) d (Or.inl hd)
  · intro backend hb query queries hyb limit
    rw [query_search]
    cases h : (reciprocal_rank_fusion (weightOriginal (queries.map hyb)) 60
        true).isEmpty with
    | true => simp [h]
    | false => simp [h]

/-- C4 counterexample: with the backend failing on every prompt, the doc at
rank 0 of the fused list is in the score map with `0.5` (not omitted), and
`query_search` with reranking on does not return the RRF-fused, non-reranked
top `limit`. -/
theorem C4_counterexample :
    rerank failingBackend "q" [dA, dB] 30 "a" = some (1 / 2) ∧
    query_search "q" ["q"] hybOne failingBackend 10 true ≠
      (reciprocal_rank_fusion (weightOriginal (["q"].map hybOne)) 60 true).take 10 := by
  constructor
  · with_unfolding_all decide
  · with_unfolding_all decide

/-! ## Characterizing the RRF accumulation (towards claims C2 and C7) -/

/-- Dictionary lookup in the entry list: the entry stored under `id`. -/
def entryFor (id : String) (entries : List Entry) : Option Entry :=
  entries.find? (fun e => e.doc_id == id)

/-- The observable numeric state of `id`'s entry: accumulated score and best
rank. -/
def infoOf (id : String) (entries : List Entry) : Option (ℚ × ℕ) :=
  (entryFor id entries).map (fun e => (e.score, e.bestRank))

/-- Minimum of a rank and an optional rank. -/
def minb (b : ℕ) : Option ℕ → ℕ
  | none => b
  | some r => min b r

theorem entryFor_eq_some_doc_id {id : String} {l : List Entry} {e : Entry}
    (h : entryFor id l = some e) : e.doc_id = id := by
  have := List.find?_some h
  simpa using this

theorem entryFor_mem {id : String} {l : List Entry} {e : Entry}
    (h : entryFor id l = some e) : e ∈ l :=
  List.mem_of_find?_eq_some h

theorem bumpEntry_doc_id (k rank : ℕ) (e : Entry) :
    (bumpEntry k rank e).doc_id = e.doc_id := rfl

theorem freshEntry_doc_id (k rank : ℕ) (d : RDoc) :
    (freshEntry k rank d).doc_id = d.file_path := rfl

theorem bumpFn_doc_id (k rank : ℕ) (d : RDoc) (e : Entry) :
    ((if e.doc_id == d.file_path then bumpEntry k rank e else e) : Entry).doc_id =
      e.doc_id := by
  split <;> rfl

theorem entryFor_of_any_false {id : String} {l : List Entry}
    (h : l.any (fun e => e.doc_id == id) = false) : entryFor id l = none := by
  rw [entryFor, List.find?_eq_none]
  intro e he
  have := List.any_eq_false.mp h e he
  simpa using this

theorem entryFor_updateEntry_ne (k rank : ℕ) (d : RDoc) (id : String)
    (entries : List Entry) (hne : id ≠ d.file_path) :
    entryFor id (updateEntry k rank d entries) = entryFor id entries := by
  rw [updateEntry]
  by_cases hany : entries.any (fun e => e.doc_id == d.file_path) = true
  · rw [if_pos hany, entryFor, List.find?_map]
    have hcomp : ((fun e : Entry => e.doc_id == id) ∘ (fun e : Entry =>
        if e.doc_id == d.file_path then bumpEntry k rank e else e)) =
        fun e : Entry => e.doc_id == id := by
      funext e
      simp only [Function.comp]
      rw [bumpFn_doc_id]
    rw [hcomp]
    cases hfind : entries.find? (fun e => e.doc_id == id) with
    | none => rw [entryFor, hfind]; rfl
    | some e =>
      have hdoc : e.doc_id = id := by simpa using List.find?_some hfind
      have hcond : ¬((e.doc_id == d.file_path) = true) := by
        simp only [hdoc, beq_iff_eq]
        exact hne
      rw [entryFor, hfind, Option.map_some']
      congr 1
      rw [if_neg hcond]
  · rw [if_neg hany, entryFor, List.find?_append]
    rw [List.find?_singleton]
    have hfr : ((freshEntry k rank d).doc_id == id) = false := by
      simp only [freshEntry_doc_id, beq_eq_false_iff_ne]
      exact fun h => hne h.symm
    rw [hfr]
    simp [entryFor]

theorem entryFor_updateEntry_self (k rank : ℕ) (d : RDoc) (entries : List Entry) :
    entryFor d.file_path (updateEntry k rank d entries) =
      some ((entryFor d.file_path entries).elim (freshEntry k rank d)
        (bumpEntry k rank)) := by
  rw [updateEntry]
  by_cases hany : entries.any (fun e => e.doc_id == d.file_path) = true
  · rw [if_pos hany, entryFor, List.find?_map]
    have hcomp : ((fun e : Entry => e.doc_id == d.file_path) ∘ (fun e : Entry =>
        if e.doc_id == d.file_path then bumpEntry k rank e else e)) =
        fun e : Entry => e.doc_id == d.file_path := by
      funext e
      simp only [Function.comp]
      rw [bumpFn_doc_id]
    rw [hcomp]
    have hsome : (entries.find? (fun e => e.doc_id == d.file_path)).isSome := by
      rw [List.find?_isSome]
      rcases List.any_eq_true.mp hany with ⟨e, he, hbe⟩
      exact ⟨e, he, hbe⟩
    rcases Option.isSome_iff_exists.mp hsome with ⟨e, he⟩
    have hdoc : e.doc_id = d.file_path := by simpa using List.find?_some he
    rw [entryFor, he, Option.map_some', Option.elim]
    congr 1
    rw [if_pos (by simp [hdoc])]
  · rw [if_neg hany, entryFor, List.find?_append]
    rw [Bool.not_eq_true] at hany
    have hnone := entryFor_of_any_false hany
    rw [entryFor] at hnone
    rw [hnone, entryFor, hnone, Option.none_or, List.find?_singleton]
    have hfr : ((freshEntry k rank d).doc_id == d.file_path) = true := by
      simp [freshEntry_doc_id]
    rw [hfr]
    rfl

theorem updateEntry_map_doc_id (k rank : ℕ) (d : RDoc) (entries : List Entry) :
    (updateEntry k rank d entries).map Entry.doc_id =
      if entries.any (fun e => e.doc_id == d.file_path) then
        entries.map Entry.doc_id
      else entries.map Entry.doc_id ++ [d.file_path] := by
  rw [updateEntry]
  by_cases hany : entries.any (fun e => e.doc_id == d.file_path) = true
  · rw [if_pos hany, if_pos hany, List.map_map]
    apply List.map_congr_left
    intro e _
    exact bumpFn_doc_id k rank d e
  · rw [if_neg hany, if_neg hany, List.map_append]
    rfl

theorem listBest_ge (id : String) :
    ∀ (ds : List RDoc) (rank r : ℕ), listBest id rank ds = some r → rank ≤ r := by
  intro ds
  induction ds with
  | nil => intro rank r h; exact absurd h (by simp [listBest])
  | cons d ds' ih =>
    intro rank r h
    simp only [listBest] at h
    by_cases hd : d.file_path = id
    · rw [if_pos hd] at h
      cases h
      exact le_refl _
    · rw [if_neg hd] at h
      exact le_trans (Nat.le_succ rank) (ih (rank + 1) r h)

theorem if_lt_eq_min (rank b : ℕ) : (if rank < b then rank else b) = min b rank := by
  rw [Nat.min_def]
  by_cases h : rank < b
  · rw [if_pos h, if_neg (by omega)]
  · rw [if_neg h, if_pos (by omega)]

/-- What one inner RRF loop pass does to the observable state of any id:
the id's accumulated score grows by its contributions in the processed list
and its best rank is min-combined with its best rank there; a first-observed
id enters with exactly those values; an id that does not appear is
untouched. -/
theorem infoOf_accumList (k : ℕ) (id : String) (hid : id ≠ "") :
    ∀ (ds : List RDoc) (rank : ℕ) (es : List Entry),
      infoOf id (accumList k rank es ds) =
        match infoOf id es, listBest id rank ds with
        | some sb, ob => some (sb.1 + listContrib k id rank ds, minb sb.2 ob)
        | none, some r => some (listContrib k id rank ds, r)
        | none, none => none := by
  intro ds
  induction ds with
  | nil =>
    intro rank es
    simp only [accumList, listBest, listContrib]
    cases infoOf id es with
    | none => rfl
    | some sb => simp [minb]
  | cons d ds' ih =>
    intro rank es
    have hstep : accumList k rank es (d :: ds') =
        accumList k (rank + 1)
          (if d.file_path == "" then es else updateEntry k rank d es) ds' := rfl
    rw [hstep]
    by_cases hd0 : d.file_path = ""
    · rw [if_pos (by simp [hd0])]
      have hne : ¬(d.file_path = id) := by rw [hd0]; exact fun h => hid h.symm
      rw [ih (rank + 1) es]
      simp only [listBest, listContrib, if_neg hne, zero_add]
    · rw [if_neg (by simp [hd0])]
      by_cases hdid : d.file_path = id
      · subst hdid
        rw [ih (rank + 1) (updateEntry k rank d es)]
        have hself := entryFor_updateEntry_self k rank d es
        simp only [infoOf, hself, Option.map_some']
        cases hfind : entryFor d.file_path es with
        | none =>
          simp only [hfind, Option.elim, Option.map_none']
          simp only [listBest, listContrib, eq_self_iff_true, if_true]
          cases hbest : listBest d.file_path (rank + 1) ds' with
          | none =>
            simp [freshEntry, minb]
          | some r' =>
            have hge : rank + 1 ≤ r' := listBest_ge _ _ _ _ hbest
            simp only [freshEntry, minb]
            rw [Nat.min_eq_left (by omega)]
        | some e =>
          simp only [hfind, Option.elim, Option.map_some']
          simp only [listBest, listContrib, eq_self_iff_true, if_true]
          cases hbest : listBest d.file_path (rank + 1) ds' with
          | none =>
            simp only [bumpEntry, minb, if_lt_eq_min]
            rw [add_assoc]
          | some r' =>
            have hge : rank + 1 ≤ r' := listBest_ge _ _ _ _ hbest
            simp only [bumpEntry, minb, if_lt_eq_min]
            rw [add_assoc, Nat.min_eq_left (by omega)]
      · rw [ih (rank + 1) (updateEntry k rank d es)]
        have hne : id ≠ d.file_path := fun h => hdid h.symm
        simp only [infoOf, entryFor_updateEntry_ne k rank d id es hne]
        simp only [listBest, listContrib, if_neg hdid, zero_add]

theorem listContrib_of_listBest_none (k : ℕ) (id : String) :
    ∀ (ds : List RDoc) (rank : ℕ), listBest id rank ds = none →
      listContrib k id rank ds = 0 := by
  intro ds
  induction ds with
  | nil => intro rank _; rfl
  | cons d ds' ih =>
    intro rank h
    simp only [listBest] at h
    by_cases hd : d.file_path = id
    · rw [if_pos hd] at h
      exact absurd h (by simp)
    · rw [if_neg hd] at h
      simp only [listContrib, if_neg hd, zero_add]
      exact ih (rank + 1) h

theorem minb_assoc (b : ℕ) (o1 o2 : Option ℕ) :
    minb (minb b o1) o2 = minb b (minOpt o1 o2) := by
  cases o1 <;> cases o2 <;> simp [minb, minOpt, Nat.min_assoc]

/-- What the whole RRF accumulation does to the observable state of any id:
starting from `es`, its score grows by its total contribution over all lists
and its best rank is min-combined with the spec-side best rank. -/
theorem infoOf_accumLists (k : ℕ) (id : String) (hid : id ≠ "") :
    ∀ (ls : List (List RDoc)) (es : List Entry),
      infoOf id (accumLists k es ls) =
        match infoOf id es, bestRankSpec id ls with
        | some sb, ob => some (sb.1 + totalContrib k id ls, minb sb.2 ob)
        | none, some b => some (totalContrib k id ls, b)
        | none, none => none := by
  intro ls
  induction ls with
  | nil =>
    intro es
    simp only [accumLists, bestRankSpec, totalContrib, List.map_nil, List.sum_nil]
    cases infoOf id es with
    | none => rfl
    | some sb => simp [minb]
  | cons l ls' ih =>
    intro es
    have hstep : accumLists k es (l :: ls') = accumLists k (accumList k 0 es l) ls' :=
      rfl
    rw [hstep, ih (accumList k 0 es l), infoOf_accumList k id hid l 0 es,
      totalContrib_cons]
    simp only [bestRankSpec]
    cases hinfo : infoOf id es with
    | some sb =>
      dsimp only
      rw [add_assoc, minb_assoc]
    | none =>
      cases hlb : listBest id 0 l with
      | some r =>
        dsimp only
        cases hbs : bestRankSpec id ls' with
        | none => simp [minb, minOpt]
        | some b' => simp [minb, minOpt]
      | none =>
        have hzero := listContrib_of_listBest_none k id l 0 hlb
        dsimp only
        cases hbs : bestRankSpec id ls' with
        | none => simp [minOpt]
        | some b' => simp [minOpt, hzero]

theorem mem_updateEntry (k rank : ℕ) (d : RDoc) (es : List Entry) (e' : Entry)
    (h : e' ∈ updateEntry k rank d es) :
    (∃ e ∈ es, e' = e ∨ e' = bumpEntry k rank e) ∨ e' = freshEntry k rank d := by
  rw [updateEntry] at h
  by_cases hany : es.any (fun e => e.doc_id == d.file_path) = true
  · rw [if_pos hany] at h
    rcases List.mem_map.mp h with ⟨e, he, heq⟩
    refine Or.inl ⟨e, he, ?_⟩
    by_cases hc : (e.doc_id == d.file_path) = true
    · rw [if_pos hc] at heq
      exact Or.inr heq.symm
    · rw [if_neg hc] at heq
      exact Or.inl heq.symm
  · rw [if_neg hany] at h
    rcases List.mem_append.mp h with he | he
    · exact Or.inl ⟨e', he, Or.inl rfl⟩
    · exact Or.inr (by simpa using he)

theorem accumList_inv (k : ℕ) (P : Entry → Prop)
    (hbump : ∀ rank e, P e → P (bumpEntry k rank e))
    (hfresh : ∀ rank d, d.file_path ≠ "" → P (freshEntry k rank d)) :
    ∀ (ds : List RDoc) (rank : ℕ) (es : List Entry),
      (∀ e ∈ es, P e) → ∀ e ∈ accumList k rank es ds, P e := by
  intro ds
  induction ds with
  | nil => intro rank es hes e he; exact hes e he
  | cons d ds' ih =>
    intro rank es hes
    have hstep : accumList k rank es (d :: ds') =
        accumList k (rank + 1)
          (if d.file_path == "" then es else updateEntry k rank d es) ds' := rfl
    rw [hstep]
    apply ih (rank + 1)
    by_cases hd0 : d.file_path = ""
    · rw [if_pos (by simp [hd0])]
      exact hes
    · rw [if_neg (by simp [hd0])]
      intro e' he'
      rcases mem_updateEntry k rank d es e' he' with ⟨e, he, heq | heq⟩ | heq
      · rw [heq]; exact hes e he
      · rw [heq]; exact hbump rank e (hes e he)
      · rw [heq]; exact hfresh rank d hd0

theorem accumLists_inv (k : ℕ) (P : Entry → Prop)
    (hbump : ∀ rank e, P e → P (bumpEntry k rank e))
    (hfresh : ∀ rank d, d.file_path ≠ "" → P (freshEntry k rank d)) :
    ∀ (ls : List (List RDoc)) (es : List Entry),
      (∀ e ∈ es, P e) → ∀ e ∈ accumLists k es ls, P e := by
  intro ls
  induction ls with
  | nil => intro es hes e he; exact hes e he
  | cons l ls' ih =>
    intro es hes
    exact ih (accumList k 0 es l) (accumList_inv k P hbump hfresh l 0 es hes)

theorem any_map_doc_id (es : List Entry) (t : String) :
    (es.map Entry.doc_id).any (fun s => s == t) = es.any (fun e => e.doc_id == t) := by
  induction es with
  | nil => rfl
  | cons e es' ih => simp only [List.map_cons, List.any_cons, ih]

theorem accumList_map_doc_id (k : ℕ) :
    ∀ (ds : List RDoc) (rank : ℕ) (es : List Entry),
      (accumList k rank es ds).map Entry.doc_id =
        discoverList (es.map Entry.doc_id) ds := by
  intro ds
  induction ds with
  | nil => intro rank es; rfl
  | cons d ds' ih =>
    intro rank es
    have hstep : accumList k rank es (d :: ds') =
        accumList k (rank + 1)
          (if d.file_path == "" then es else updateEntry k rank d es) ds' := rfl
    rw [hstep]
    simp only [discoverList, any_map_doc_id]
    by_cases hd0 : d.file_path = ""
    · rw [if_pos (by simp [hd0] : (d.file_path == "") = true),
        if_pos (by simp [hd0] : (d.file_path == "" ||
          es.any fun e => e.doc_id == d.file_path) = true)]
      exact ih (rank + 1) es
    · by_cases hany : es.any (fun e => e.doc_id == d.file_path) = true
      · rw [if_neg (by simp [hd0]), if_pos (by simp [hany])]
        rw [ih (rank + 1) (updateEntry k rank d es), updateEntry_map_doc_id,
          if_pos hany]
      · rw [if_neg (by simp [hd0]),
          if_neg (by simp [hd0, hany] : ¬(d.file_path == "" ||
            es.any fun e => e.doc_id == d.file_path) = true)]
        rw [ih (rank + 1) (updateEntry k rank d es), updateEntry_map_doc_id,
          if_neg hany]

theorem accumLists_map_doc_id (k : ℕ) :
    ∀ (ls : List (List RDoc)) (es : List Entry),
      (accumLists k es ls).map Entry.doc_id = discoverAll (es.map Entry.doc_id) ls := by
  intro ls
  induction ls with
  | nil => intro es; rfl
  | cons l ls' ih =>
    intro es
    have hstep : accumLists k es (l :: ls') = accumLists k (accumList k 0 es l) ls' :=
      rfl
    rw [hstep, ih (accumList k 0 es l), accumList_map_doc_id]
    rfl

theorem discoverList_nodup :
    ∀ (ds : List RDoc) (seen : List String), seen.Nodup → (discoverList seen ds).Nodup := by
  intro ds
  induction ds with
  | nil => intro seen h; exact h
  | cons d ds' ih =>
    intro seen h
    simp only [discoverList]
    by_cases hc : (d.file_path == "" || seen.any fun s => s == d.file_path) = true
    · rw [if_pos hc]
      exact ih seen h
    · rw [if_neg hc]
      apply ih
      have hnotmem : d.file_path ∉ seen := by
        intro hmem
        apply hc
        rw [Bool.or_eq_true]
        exact Or.inr (List.any_eq_true.mpr ⟨d.file_path, hmem, by simp⟩)
      exact List.Nodup.append h (List.nodup_singleton _)
        (fun a ha hb => by
          simp only [List.mem_singleton] at hb
          subst hb
          exact hnotmem ha)

theorem discoverAll_nodup :
    ∀ (ls : List (List RDoc)) (seen : List String), seen.Nodup →
      (discoverAll seen ls).Nodup := by
  intro ls
  induction ls with
  | nil => intro seen h; exact h
  | cons l ls' ih =>
    intro seen h
    exact ih (discoverList seen l) (discoverList_nodup l seen h)

theorem pairwise_indexOf_of_map_eq {β : Type*} (f : β → String) :
    ∀ (l : List β) (ids : List String), l.map f = ids → ids.Nodup →
      l.Pairwise (fun a b => ids.indexOf (f a) < ids.indexOf (f b)) := by
  intro l
  induction l with
  | nil => intro ids _ _; exact List.Pairwise.nil
  | cons x xs ih =>
    intro ids hmap hnd
    subst hmap
    simp only [List.map_cons] at hnd
    rcases List.nodup_cons.mp hnd with ⟨hnotmem, hnd'⟩
    rw [List.map_cons]
    constructor
    · intro b hb
      rw [List.indexOf_cons_self]
      have hfb : f b ∈ xs.map f := List.mem_map_of_mem f hb
      have hne : f x ≠ f b := fun h => hnotmem (by rw [h]; exact hfb)
      rw [List.indexOf_cons_ne _ hne]
      omega
    · have hp := ih (xs.map f) rfl hnd'
      refine hp.imp_of_mem ?_
      intro a b ha hb hlt
      have hfa : f a ∈ xs.map f := List.mem_map_of_mem f ha
      have hfb : f b ∈ xs.map f := List.mem_map_of_mem f hb
      have hnea : f x ≠ f a := fun h => hnotmem (by rw [h]; exact hfa)
      have hneb : f x ≠ f b := fun h => hnotmem (by rw [h]; exact hfb)
      rw [List.indexOf_cons_ne _ hnea, List.indexOf_cons_ne _ hneb]
      omega

theorem decorate_length : ∀ (es : List Entry) (i : ℕ),
    (decorate i es).length = es.length := by
  intro es
  induction es with
  | nil => intro i; rfl
  | cons e es' ih => intro i; simp [decorate, ih]

theorem decorate_get_rrf_rank : ∀ (es : List Entry) (i j : ℕ)
    (h : j < (decorate i es).length),
    ((decorate i es).get ⟨j, h⟩).rrf_rank = some (i + j) := by
  intro es
  induction es with
  | nil => intro i j h; exact absurd h (by simp [decorate])
  | cons e es' ih =>
    intro i j h
    cases j with
    | zero => simp [decorate]
    | succ j' =>
      have h' : j' < (decorate (i + 1) es').length := by
        have := h
        simp only [decorate, List.length_cons] at this
        omega
      have hget : (decorate i (e :: es')).get ⟨j' + 1, h⟩ =
          (decorate (i + 1) es').get ⟨j', h'⟩ := rfl
      rw [hget, ih (i + 1) j' h']
      congr 1
      omega

theorem mem_decorate : ∀ (es : List Entry) (i : ℕ) (a : RDoc), a ∈ decorate i es →
    ∃ e ∈ es, ∃ n, a = { e.doc with score := some e.score, rrf_rank := some n } := by
  intro es
  induction es with
  | nil => intro i a ha; exact absurd ha (by simp [decorate])
  | cons e es' ih =>
    intro i a ha
    rcases List.mem_cons.mp ha with rfl | ha'
    · exact ⟨e, List.mem_cons_self _ _, i, rfl⟩
    · rcases ih (i + 1) a ha' with ⟨e2, he2, n, heq⟩
      exact ⟨e2, List.mem_cons_of_mem _ he2, n, heq⟩

theorem decorate_mem_of_mem : ∀ (es : List Entry) (i : ℕ) (e : Entry), e ∈ es →
    ∃ n, ({ e.doc with score := some e.score, rrf_rank := some n } : RDoc) ∈
      decorate i es := by
  intro es
  induction es with
  | nil => intro i e he; exact absurd he (by simp)
  | cons e0 es' ih =>
    intro i e he
    rcases List.mem_cons.mp he with rfl | he'
    · exact ⟨i, List.mem_cons_self _ _⟩
    · rcases ih (i + 1) e he' with ⟨n, hn⟩
      exact ⟨n, List.mem_cons_of_mem _ hn⟩

theorem decorate_map_file_path : ∀ (es : List Entry) (i : ℕ),
    (decorate i es).map (fun d => d.file_path) = es.map (fun e => e.doc.file_path) := by
  intro es
  induction es with
  | nil => intro i; rfl
  | cons e es' ih =>
    intro i
    simp only [decorate, List.map_cons, ih]

theorem decorate_pairwise (r : RDoc → RDoc → Prop) (q : Entry → Entry → Prop)
    (hq : ∀ e1 e2, q e1 e2 → ∀ n1 n2,
      r { e1.doc with score := some e1.score, rrf_rank := some n1 }
        { e2.doc with score := some e2.score, rrf_rank := some n2 }) :
    ∀ (es : List Entry) (i : ℕ), es.Pairwise q → (decorate i es).Pairwise r := by
  intro es
  induction es with
  | nil => intro i _; exact List.Pairwise.nil
  | cons e es' ih =>
    intro i hp
    rcases List.pairwise_cons.mp hp with ⟨he, hp'⟩
    constructor
    · intro b hb
      rcases mem_decorate es' (i + 1) b hb with ⟨e2, he2, n, rfl⟩
      exact hq e e2 (he e2 he2) i n
    · exact ih (i + 1) hp'

theorem entryFor_of_mem_nodup : ∀ (es : List Entry),
    (es.map Entry.doc_id).Nodup → ∀ e ∈ es, entryFor e.doc_id es = some e := by
  intro es
  induction es with
  | nil => intro _ e he; exact absurd he (by simp)
  | cons e0 es' ih =>
    intro hnd e he
    simp only [List.map_cons] at hnd
    rcases List.nodup_cons.mp hnd with ⟨hnotmem, hnd'⟩
    rcases List.mem_cons.mp he with rfl | he'
    · rw [entryFor]
      simp only [List.find?]
      rw [show (e.doc_id == e.doc_id) = true by simp]
    · have hne : (e0.doc_id == e.doc_id) = false := by
        rw [beq_eq_false_iff_ne]
        intro hcontra
        exact hnotmem (hcontra ▸ List.mem_map_of_mem Entry.doc_id he')
      rw [entryFor]
      simp only [List.find?]
      rw [hne]
      exact ih hnd' e he'

theorem applyBonus_eq (e : Entry) :
    applyBonus e = { e with score := e.score + bonusFor e.bestRank } := by
  rcases e with ⟨id, s, doc, b⟩
  rw [applyBonus, bonusFor]
  dsimp only
  by_cases h0 : b = 0
  · rw [if_pos h0, if_pos h0]
  · rw [if_neg h0, if_neg h0]
    by_cases h2 : b ≤ 2
    · rw [if_pos h2, if_pos h2]
    · rw [if_neg h2, if_neg h2, add_zero]

theorem applyBonus_doc_id (e : Entry) : (applyBonus e).doc_id = e.doc_id := by
  rw [applyBonus_eq]

theorem applyBonus_doc (e : Entry) : (applyBonus e).doc = e.doc := by
  rw [applyBonus_eq]

theorem entries_inv (k : ℕ) (ls : List (List RDoc)) :
    ∀ e ∈ accumLists k [] ls, e.doc_id ≠ "" ∧ e.doc.file_path = e.doc_id :=
  accumLists_inv k (fun e => e.doc_id ≠ "" ∧ e.doc.file_path = e.doc_id)
    (fun _ _ h => h) (fun _ d hd => ⟨hd, rfl⟩) ls []
    (fun e he => absurd he (by simp))

theorem entries_ids_eq (k : ℕ) (ls : List (List RDoc)) :
    (accumLists k [] ls).map Entry.doc_id = discoverAll [] ls := by
  have := accumLists_map_doc_id k ls []
  simpa using this

theorem entries_ids_nodup (k : ℕ) (ls : List (List RDoc)) :
    ((accumLists k [] ls).map Entry.doc_id).Nodup := by
  rw [entries_ids_eq]
  exact discoverAll_nodup ls [] List.nodup_nil

/-- C2 (confirmed): in `reciprocal_rank_fusion`, every returned doc bears a
nonempty id, its fused score is the sum of `1/(k + r + 1)` over all its
appearances plus (when `top_rank_bonus`) the bonus determined by its best
rank (`+0.05` at best rank 0, else `+0.02` at best rank `≤ 2`, else
nothing); every appearing id is returned (docs without an id are the only
ones dropped); the output is sorted by final score descending; and each
returned doc carries `rrf_rank` equal to its 0-based output position. -/
theorem C2_rrf_spec (result_lists : List (List RDoc)) (k : ℕ)
    (top_rank_bonus : Bool) :
    (∀ d ∈ reciprocal_rank_fusion result_lists k top_rank_bonus,
        d.file_path ≠ "" ∧
        ∃ b, bestRankSpec d.file_path result_lists = some b ∧
          d.score = some (totalContrib k d.file_path result_lists +
            (if top_rank_bonus then bonusFor b else 0))) ∧
    (∀ id, id ≠ "" → (bestRankSpec id result_lists).isSome →
        ∃ d ∈ reciprocal_rank_fusion result_lists k top_rank_bonus,
          d.file_path = id) ∧
    (reciprocal_rank_fusion result_lists k top_rank_bonus).Pairwise
      (fun a b => b.score.getD 0 ≤ a.score.getD 0) ∧
    (∀ i (h : i < (reciprocal_rank_fusion result_lists k top_rank_bonus).length),
        ((reciprocal_rank_fusion result_lists k top_rank_bonus).get ⟨i, h⟩).rrf_rank =
          some i) := by
  have hrrf : reciprocal_rank_fusion result_lists k top_rank_bonus =
      decorate 0 (sortDesc (fun e => e.score)
        (if top_rank_bonus then (accumLists k [] result_lists).map applyBonus
         else accumLists k [] result_lists)) := rfl
  refine ⟨?_, ?_, ?_, ?_⟩
  · intro d hd
    rw [hrrf] at hd
    rcases mem_decorate _ _ _ hd with ⟨e', he', n, rfl⟩
    have he'' : e' ∈ (if top_rank_bonus then
        (accumLists k [] result_lists).map applyBonus
      else accumLists k [] result_lists) :=
      (sortDesc_perm (fun e => e.score) _).mem_iff.mp he'
    by_cases hb : top_rank_bonus = true
    · rw [if_pos hb] at he''
      rcases List.mem_map.mp he'' with ⟨e, he, rfl⟩
      have hinv := entries_inv k result_lists e he
      have hfind := entryFor_of_mem_nodup _ (entries_ids_nodup k result_lists) e he
      have hinfo : infoOf e.doc_id (accumLists k [] result_lists) =
          some (e.score, e.bestRank) := by
        rw [infoOf, hfind]
        rfl
      have hchar := infoOf_accumLists k e.doc_id hinv.1 result_lists []
      rw [hinfo, show infoOf e.doc_id ([] : List Entry) = none from rfl] at hchar
      cases hbs : bestRankSpec e.doc_id result_lists with
      | none =>
        rw [hbs] at hchar
        exact absurd hchar (by simp)
      | some b =>
        rw [hbs] at hchar
        have hpair : e.score = totalContrib k e.doc_id result_lists ∧
            e.bestRank = b := by
          simpa [Prod.ext_iff] using hchar
        constructor
        · simpa [applyBonus_doc, hinv.2] using hinv.1
        · refine ⟨b, ?_, ?_⟩
          · simpa [applyBonus_doc, hinv.2] using hbs
          · rw [applyBonus_eq]
            simp [hb, hinv.2, hpair.1, hpair.2]
    · rw [if_neg hb] at he''
      have hinv := entries_inv k result_lists e' he''
      have hfind := entryFor_of_mem_nodup _ (entries_ids_nodup k result_lists) e' he''
      have hinfo : infoOf e'.doc_id (accumLists k [] result_lists) =
          some (e'.score, e'.bestRank) := by
        rw [infoOf, hfind]
        rfl
      have hchar := infoOf_accumLists k e'.doc_id hinv.1 result_lists []
      rw [hinfo, show infoOf e'.doc_id ([] : List Entry) = none from rfl] at hchar
      cases hbs : bestRankSpec e'.doc_id result_lists with
      | none =>
        rw [hbs] at hchar
        exact absurd hchar (by simp)
      | some b =>
        rw [hbs] at hchar
        have hpair : e'.score = totalContrib k e'.doc_id result_lists ∧
            e'.bestRank = b := by
          simpa [Prod.ext_iff] using hchar
        constructor
        · simpa [hinv.2] using hinv.1
        · refine ⟨b, ?_, ?_⟩
          · simpa [hinv.2] using hbs
          · simp [hb, hinv.2, hpair.1]
  · intro id hid hsome
    have hchar := infoOf_accumLists k id hid result_lists []
    rw [show infoOf id ([] : List Entry) = none from rfl] at hchar
    rcases Option.isSome_iff_exists.mp hsome with ⟨b, hbs⟩
    rw [hbs] at hchar
    have hex : ∃ e, entryFor id (accumLists k [] result_lists) = some e := by
      rw [infoOf] at hchar
      cases hf : entryFor id (accumLists k [] result_lists) with
      | none =>
        rw [hf] at hchar
        exact absurd hchar (by simp)
      | some e => exact ⟨e, rfl⟩
    rcases hex with ⟨e, hf⟩
    have hdoc_id : e.doc_id = id := entryFor_eq_some_doc_id hf
    have hmem : e ∈ accumLists k [] result_lists := entryFor_mem hf
    have hinv := entries_inv k result_lists e hmem
    by_cases hbonus : top_rank_bonus = true
    · have hmem' : applyBonus e ∈ (if top_rank_bonus then
          (accumLists k [] result_lists).map applyBonus
        else accumLists k [] result_lists) := by
        rw [if_pos hbonus]
        exact List.mem_map_of_mem applyBonus hmem
      have hsorted : applyBonus e ∈ sortDesc (fun e => e.score)
          (if top_rank_bonus then (accumLists k [] result_lists).map applyBonus
           else accumLists k [] result_lists) :=
        (sortDesc_perm (fun e => e.score) _).mem_iff.mpr hmem'
      rcases decorate_mem_of_mem _ 0 _ hsorted with ⟨n, hn⟩
      rw [hrrf]
      refine ⟨_, hn, ?_⟩
      simp [applyBonus_doc, hinv.2, hdoc_id]
    · have hmem' : e ∈ (if top_rank_bonus then
          (accumLists k [] result_lists).map applyBonus
        else accumLists k [] result_lists) := by
        rw [if_neg hbonus]
        exact hmem
      have hsorted : e ∈ sortDesc (fun e => e.score)
          (if top_rank_bonus then (accumLists k [] result_lists).map applyBonus
           else accumLists k [] result_lists) :=
        (sortDesc_perm (fun e => e.score) _).mem_iff.mpr hmem'
      rcases decorate_mem_of_mem _ 0 _ hsorted with ⟨n, hn⟩
      rw [hrrf]
      refine ⟨_, hn, ?_⟩
      simp [hinv.2, hdoc_id]
  · rw [hrrf]
    exact decorate_pairwise (fun a b => b.score.getD 0 ≤ a.score.getD 0)
      (fun e1 e2 => e2.score ≤ e1.score)
      (fun e1 e2 h n1 n2 => by simpa using h) _ 0
      (sortDesc_sorted (fun e : Entry => e.score) _)
  · intro i
    rw [hrrf]
    intro h
    have := decorate_get_rrf_rank _ 0 i h
    simpa using this

/-- C2 witness: the single-appearance doc `dA` in one single-doc list, with
`k = 60` and the bonus on: best rank 0, score `1/61 + 5/100`, position 0. -/
theorem C2_witness :
    dA.file_path ≠ "" ∧
    (bestRankSpec "a" [[dA]]).isSome ∧
    (∃ d ∈ reciprocal_rank_fusion [[dA]] 60 true, d.file_path = "a") ∧
    (reciprocal_rank_fusion [[dA]] 60 true).Pairwise
      (fun a b => b.score.getD 0 ≤ a.score.getD 0) := by
  have h := C2_rrf_spec [[dA]] 60 true
  refine ⟨by with_unfolding_all decide, by with_unfolding_all decide, ?_, h.2.2.1⟩
  exact h.2.1 "a" (by with_unfolding_all decide) (by with_unfolding_all decide)

/-- The entry list the accumulation builds from one list of distinct,
never-seen docs: one fresh entry per doc, in list order. -/
def singletonEntries (k : ℕ) : ℕ → List RDoc → List Entry
  | _, [] => []
  | rank, d :: ds => freshEntry k rank d :: singletonEntries k (rank + 1) ds

theorem accumList_all_fresh (k : ℕ) :
    ∀ (ds : List RDoc) (rank : ℕ) (es : List Entry),
      (∀ d ∈ ds, d.file_path ≠ "") →
      (ds.map (fun d => d.file_path)).Nodup →
      (∀ d ∈ ds, es.any (fun e => e.doc_id == d.file_path) = false) →
      accumList k rank es ds = es ++ singletonEntries k rank ds := by
  intro ds
  induction ds with
  | nil => intro rank es _ _ _; simp [accumList, singletonEntries]
  | cons d ds' ih =>
    intro rank es hne hnd hfresh
    have hd0 : d.file_path ≠ "" := hne d (List.mem_cons_self _ _)
    have hstep : accumList k rank es (d :: ds') =
        accumList k (rank + 1)
          (if d.file_path == "" then es else updateEntry k rank d es) ds' := rfl
    rw [hstep, if_neg (by simp [hd0])]
    have hany : es.any (fun e => e.doc_id == d.file_path) = false :=
      hfresh d (List.mem_cons_self _ _)
    have hupd : updateEntry k rank d es = es ++ [freshEntry k rank d] := by
      rw [updateEntry, if_neg (by simp [hany])]
    rw [hupd]
    simp only [List.map_cons] at hnd
    rcases List.nodup_cons.mp hnd with ⟨hdnotmem, hnd'⟩
    have hfresh' : ∀ d' ∈ ds',
        (es ++ [freshEntry k rank d]).any (fun e => e.doc_id == d'.file_path) =
          false := by
      intro d' hd'
      rw [List.any_append, hfresh d' (List.mem_cons_of_mem _ hd'), Bool.false_or]
      simp only [List.any_cons, List.any_nil, Bool.or_false, freshEntry_doc_id]
      rw [beq_eq_false_iff_ne]
      intro hcontra
      apply hdnotmem
      rw [hcontra]
      exact List.mem_map_of_mem _ hd'
    rw [ih (rank + 1) _ (fun d' hd' => hne d' (List.mem_cons_of_mem _ hd')) hnd'
      hfresh']
    simp only [singletonEntries, List.append_assoc, List.singleton_append]

/-- The final score of the entry at rank `r` of a single duplicate-free
list, bonus included. -/
def rrfSingleScore (k rank : ℕ) : ℚ := rrfContrib k rank + bonusFor rank

theorem rrfContrib_succ_lt (k rank : ℕ) :
    rrfContrib k (rank + 1) < rrfContrib k rank := by
  rw [rrfContrib, rrfContrib]
  apply one_div_lt_one_div_of_lt
  · positivity
  · push_cast
    linarith

theorem bonusFor_succ_le (rank : ℕ) : bonusFor (rank + 1) ≤ bonusFor rank := by
  rcases rank with _ | _ | _ | r
  · norm_num [bonusFor]
  · norm_num [bonusFor]
  · norm_num [bonusFor]
  · have h1 : ¬(r + 1 + 1 + 1 + 1 ≤ 2) := by omega
    have h2 : ¬(r + 1 + 1 + 1 ≤ 2) := by omega
    have h3 : ¬(r + 1 + 1 + 1 + 1 = 0) := by omega
    have h4 : ¬(r + 1 + 1 + 1 = 0) := by omega
    simp [bonusFor, h1, h2, h3, h4]

theorem rrfSingleScore_succ_lt (k n : ℕ) :
    rrfSingleScore k (n + 1) < rrfSingleScore k n :=
  add_lt_add_of_lt_of_le (rrfContrib_succ_lt k n) (bonusFor_succ_le n)

theorem rrfSingleScore_lt (k : ℕ) {r r' : ℕ} (h : r < r') :
    rrfSingleScore k r' < rrfSingleScore k r := by
  have hs : StrictAnti (fun n => rrfSingleScore k n) :=
    strictAnti_nat_of_succ_lt (fun n => rrfSingleScore_succ_lt k n)
  exact hs h

theorem singleton_bonus_mem (k : ℕ) :
    ∀ (ds : List RDoc) (rank : ℕ) (e : Entry),
      e ∈ (singletonEntries k rank ds).map applyBonus →
      ∃ m, rank ≤ m ∧ e.score = rrfSingleScore k m := by
  intro ds
  induction ds with
  | nil => intro rank e he; exact absurd he (by simp [singletonEntries])
  | cons d ds' ih =>
    intro rank e he
    rw [singletonEntries, List.map_cons] at he
    rcases List.mem_cons.mp he with rfl | he'
    · refine ⟨rank, le_refl _, ?_⟩
      rw [applyBonus_eq]
      rfl
    · rcases ih (rank + 1) e he' with ⟨m, hm, hs⟩
      exact ⟨m, by omega, hs⟩

theorem singleton_bonus_pairwise (k : ℕ) :
    ∀ (ds : List RDoc) (rank : ℕ),
      ((singletonEntries k rank ds).map applyBonus).Pairwise
        (fun a b => b.score < a.score) := by
  intro ds
  induction ds with
  | nil => intro rank; simp [singletonEntries]
  | cons d ds' ih =>
    intro rank
    rw [singletonEntries, List.map_cons]
    constructor
    · intro b hb
      rcases singleton_bonus_mem k ds' (rank + 1) b hb with ⟨m, hm, hs⟩
      have hhead : (applyBonus (freshEntry k rank d)).score = rrfSingleScore k rank := by
        rw [applyBonus_eq]
        rfl
      rw [hs, hhead]
      exact rrfSingleScore_lt k (by omega)
    · exact ih (rank + 1)

theorem singletonEntries_map_doc (k : ℕ) :
    ∀ (ds : List RDoc) (rank : ℕ),
      (singletonEntries k rank ds).map (fun e => e.doc.file_path) =
        ds.map (fun d => d.file_path) := by
  intro ds
  induction ds with
  | nil => intro rank; rfl
  | cons d ds' ih =>
    intro rank
    simp only [singletonEntries, List.map_cons, ih]
    rfl

/-- C7 (corrected): with a single input list whose docs bear pairwise
distinct nonempty ids, `reciprocal_rank_fusion` (default `k = 60`, bonus on)
returns the docs in the same order; and in general the fused output is
ordered lexicographically by (score descending, first-observation order
ascending) — ties in score are broken by original discovery order. -/
theorem C7_single_list_order_and_ties :
    (∀ L : List RDoc, (∀ d ∈ L, d.file_path ≠ "") →
        (L.map (fun d => d.file_path)).Nodup →
        (reciprocal_rank_fusion [L] 60 true).map (fun d => d.file_path) =
          L.map (fun d => d.file_path)) ∧
    (∀ (result_lists : List (List RDoc)) (k : ℕ) (top_rank_bonus : Bool),
        (reciprocal_rank_fusion result_lists k top_rank_bonus).Pairwise
          (fun a b => b.score.getD 0 < a.score.getD 0 ∨
            (a.score.getD 0 = b.score.getD 0 ∧
              (discoverAll [] result_lists).indexOf a.file_path <
                (discoverAll [] result_lists).indexOf b.file_path))) := by
  constructor
  · intro L hne hnd
    have hentries : accumLists 60 [] [L] = singletonEntries 60 0 L := by
      have h := accumList_all_fresh 60 L 0 [] hne hnd (fun d _ => rfl)
      simpa [accumLists] using h
    have hrrf : reciprocal_rank_fusion [L] 60 true =
        decorate 0 (sortDesc (fun e : Entry => e.score)
          ((accumLists 60 [] [L]).map applyBonus)) := rfl
    have hsort : sortDesc (fun e : Entry => e.score)
        ((accumLists 60 [] [L]).map applyBonus) =
        (accumLists 60 [] [L]).map applyBonus := by
      rw [hentries]
      exact sortDesc_of_strictDesc _ _ (singleton_bonus_pairwise 60 L 0)
    rw [hrrf, hsort, decorate_map_file_path, hentries, List.map_map]
    have hcomp : ((fun e : Entry => e.doc.file_path) ∘ applyBonus) =
        fun e : Entry => e.doc.file_path := by
      funext e
      simp only [Function.comp]
      rw [applyBonus_doc]
    rw [hcomp, singletonEntries_map_doc]
  · intro result_lists k tb
    have hrrf : reciprocal_rank_fusion result_lists k tb =
        decorate 0 (sortDesc (fun e : Entry => e.score)
          (if tb then (accumLists k [] result_lists).map applyBonus
           else accumLists k [] result_lists)) := rfl
    have hidx : (accumLists k [] result_lists).Pairwise
        (fun a b => (discoverAll [] result_lists).indexOf a.doc_id <
          (discoverAll [] result_lists).indexOf b.doc_id) :=
      pairwise_indexOf_of_map_eq Entry.doc_id (accumLists k [] result_lists)
        (discoverAll [] result_lists) (entries_ids_eq k result_lists)
        (discoverAll_nodup result_lists [] List.nodup_nil)
    have hidx' : (if tb then (accumLists k [] result_lists).map applyBonus
        else accumLists k [] result_lists).Pairwise
        (fun a b => (discoverAll [] result_lists).indexOf a.doc_id <
          (discoverAll [] result_lists).indexOf b.doc_id) := by
      by_cases hb : tb = true
      · rw [if_pos hb, List.pairwise_map]
        refine hidx.imp ?_
        intro a b hab
        simpa [applyBonus_doc_id] using hab
      · rw [if_neg hb]
        exact hidx
    have hinv' : ∀ e ∈ (if tb then (accumLists k [] result_lists).map applyBonus
        else accumLists k [] result_lists), e.doc.file_path = e.doc_id := by
      intro e he
      by_cases hb : tb = true
      · rw [if_pos hb] at he
        rcases List.mem_map.mp he with ⟨e0, he0, rfl⟩
        rw [applyBonus_doc, applyBonus_doc_id]
        exact (entries_inv k result_lists e0 he0).2
      · rw [if_neg hb] at he
        exact (entries_inv k result_lists e he).2
    have hst := sortDesc_stable (fun e : Entry => e.score)
      (fun e => (discoverAll [] result_lists).indexOf e.doc_id) _ hidx'
    have hst' : (sortDesc (fun e : Entry => e.score)
        (if tb then (accumLists k [] result_lists).map applyBonus
         else accumLists k [] result_lists)).Pairwise
        (fun a b => b.score < a.score ∨ (a.score = b.score ∧
          (discoverAll [] result_lists).indexOf a.doc.file_path <
            (discoverAll [] result_lists).indexOf b.doc.file_path)) := by
      refine hst.imp_of_mem ?_
      intro a b ha hb hab
      have ha' := hinv' a ((sortDesc_perm (fun e : Entry => e.score) _).mem_iff.mp ha)
      have hb' := hinv' b ((sortDesc_perm (fun e : Entry => e.score) _).mem_iff.mp hb)
      rw [ha', hb']
      exact hab
    rw [hrrf]
    refine decorate_pairwise
      (fun a b => b.score.getD 0 < a.score.getD 0 ∨
        (a.score.getD 0 = b.score.getD 0 ∧
          (discoverAll [] result_lists).indexOf a.file_path <
            (discoverAll [] result_lists).indexOf b.file_path))
      (fun a b => b.score < a.score ∨ (a.score = b.score ∧
        (discoverAll [] result_lists).indexOf a.doc.file_path <
          (discoverAll [] result_lists).indexOf b.doc.file_path))
      ?_ _ 0 hst'
    intro e1 e2 h n1 n2
    rcases h with hlt | ⟨heq, hidxlt⟩
    · left
      simpa using hlt
    · right
      constructor
      · simpa using heq
      · simpa using hidxlt

/-- C7 counterexample: a single list bearing ids `a, b, b, b, b` — all docs
bear ids, yet the four appearances of `b` (total score
`1/62 + 1/63 + 1/64 + 1/65 + 0.02 ≈ 0.083`) overtake `a`
(`1/61 + 0.05 ≈ 0.066`), so the fused output lists `b` before `a`: the
docs' relative order is not preserved when the list holds duplicate ids. -/
theorem C7_counterexample :
    (reciprocal_rank_fusion [[dA, dB, dB, dB, dB]] 60 true).map
        (fun d => d.file_path) = ["b", "a"] ∧
    (["b", "a"] : List String) ≠ ["a", "b"] := by
  constructor
  · with_unfolding_all decide
  · with_unfolding_all decide

/-- C7 witness: the order-preservation half applied to the duplicate-free
list `[dA, dB]`, plus the tie-break ordering at the same input. -/
theorem C7_witness :
    (reciprocal_rank_fusion [[dA, dB]] 60 true).map (fun d => d.file_path) =
      [dA, dB].map (fun d => d.file_path) ∧
    (reciprocal_rank_fusion [[dA, dB]] 60 true).Pairwise
      (fun a b => b.score.getD 0 < a.score.getD 0 ∨
        (a.score.getD 0 = b.score.getD 0 ∧
          (discoverAll [] [[dA, dB]]).indexOf a.file_path <
            (discoverAll [] [[dA, dB]]).indexOf b.file_path)) :=
  ⟨C7_single_list_order_and_ties.1 [dA, dB] (by with_unfolding_all decide)
      (by with_unfolding_all decide),
   C7_single_list_order_and_ties.2 [[dA, dB]] 60 true⟩

/-- C4 witness: the half-score map fact and the blend-shaped output at
concrete inputs, through the theorem itself. -/
theorem C4_witness :
    rerank failingBackend "q2" [dA, dB] 30 dA.file_path = some (1 / 2) ∧
    query_search "q2" ["q2"] hybOne failingBackend 5 true =
      (if (reciprocal_rank_fusion (weightOriginal (["q2"].map hybOne)) 60
            true).isEmpty then
         reciprocal_rank_fusion (weightOriginal (["q2"].map hybOne)) 60 true
       else
         position_aware_blend
           (reciprocal_rank_fusion (weightOriginal (["q2"].map hybOne)) 60 true)
           (rerank failingBackend "q2"
             (reciprocal_rank_fusion (weightOriginal (["q2"].map hybOne)) 60 true)
             30)).take 5 :=
  ⟨C4_backend_failure_half_scores_blend.1 failingBackend (fun _ => rfl) "q2"
      [dA, dB] 30 dA (by with_unfolding_all decide),
   C4_backend_failure_half_scores_blend.2 failingBackend (fun _ => rfl) "q2"
      ["q2"] hybOne 5⟩

end NoteRag
